import Mathlib

/-!
# Mastersteam: bounded batch scheduler and packet codec

A shallow embedding of `batch/batch.go` (the `BatchProcessor` coordinator and its
client entry points) and of `valve/packet.go` (`PacketBuilder`, `PacketReader`,
the rate limiter of `UdpSocket`), followed by the properties proved about them.

Conventions.
* Go `int` and `time.Duration` values are `Int`; cursor positions, which the code
  only ever increments from zero, are `Nat`.
* A Go channel is represented by what it buffers.
* A goroutine is represented by the events it can take; `step` is the transition
  function of the whole system and is undefined (`none`) for an event whose
  goroutine is blocked or gone.
-/

namespace batch

/-- The `BatchProcessor` struct, the two locals of `waitForBatches`, and the
observable history of the run. -/
structure BatchProcessor (α : Type) where
  /-- Field `maxTasks`. -/
  maxTasks : Int
  /-- Channel `stopCommand` (capacity 1): commands sent and not yet received. -/
  stopCommand : List Bool
  /-- Channel `finishedSignal` (capacity 1): signals sent and not yet received. -/
  finishedSignal : Nat
  /-- Channel `taskDone` (capacity `maxTasks`): notifications not yet received. -/
  taskDone : Nat
  /-- Field `stopped`, the re-entry flag of `send_stop`. -/
  stopped : Bool
  /-- Field `worklist`. -/
  worklist : List α
  /-- Field `outstanding`. -/
  outstanding : Int
  /-- Local `stopped` of `waitForBatches`. -/
  loopStopped : Bool
  /-- Local `terminated` of `waitForBatches`. -/
  terminated : Bool
  /-- Whether `waitForBatches` has returned. -/
  exited : Bool
  /-- Number of handler goroutines started by `enqueueItem` whose callback has
  not returned yet. -/
  running : Nat
  /-- Every item handed to the callback so far, oldest first. -/
  dispatched : List α
  /-- Number of callers of `send_stop` blocked on `<-bp.finishedSignal`. -/
  waiting : Nat
  /-- Number of sends on `finishedSignal` performed by the coordinator so far. -/
  signalsSent : Nat
deriving DecidableEq

/-- `NewBatchProcessor(callback, maxTasks)`. `make(chan bool, maxTasks)` faults
for a negative capacity, which is the `none` result. The allocator's upper
limit on the capacity, which depends on the platform, is not represented: a
capacity above it is treated like any other non-negative one. -/
def NewBatchProcessor {α : Type} (maxTasks : Int) : Option (BatchProcessor α) :=
  if maxTasks < 0 then none
  else some
    { maxTasks := maxTasks
      stopCommand := []
      finishedSignal := 0
      taskDone := 0
      stopped := false
      worklist := []
      outstanding := 0
      loopStopped := false
      terminated := false
      exited := false
      running := 0
      dispatched := []
      waiting := 0
      signalsSent := 0 }

/-- `send_stop(terminate)` up to its blocking receive: the caller returns at once
when the flag is set, otherwise sets it, sends the command and blocks on
`finishedSignal` (it is released by the `wake` event). -/
def send_stop {α : Type} (bp : BatchProcessor α) (terminate : Bool) : BatchProcessor α :=
  if bp.stopped then bp
  else
    { bp with
      stopped := true
      stopCommand := bp.stopCommand ++ [terminate]
      waiting := bp.waiting + 1 }

/-- `Finish()`. -/
def Finish {α : Type} (bp : BatchProcessor α) : BatchProcessor α :=
  send_stop bp false

/-- `Terminate()`. -/
def Terminate {α : Type} (bp : BatchProcessor α) : BatchProcessor α :=
  send_stop bp true

/-- `enqueueItem(item)`: count the task and start a goroutine that runs the
callback on the item. -/
def enqueueItem {α : Type} (bp : BatchProcessor α) (item : α) : BatchProcessor α :=
  { bp with
    outstanding := bp.outstanding + 1
    running := bp.running + 1
    dispatched := bp.dispatched ++ [item] }

/-- `enqueueBatch(batch)`. The argument is the part of the batch from `index` on:
the first loop starts items while `outstanding < maxTasks`, the second loop
appends whatever is left to the worklist. -/
def enqueueBatch {α : Type} (bp : BatchProcessor α) : List α → BatchProcessor α
  | [] => bp
  | item :: rest =>
    if bp.outstanding < bp.maxTasks then enqueueBatch (enqueueItem bp item) rest
    else { bp with worklist := bp.worklist ++ item :: rest }

/-- `workRemaining()`. -/
def workRemaining {α : Type} (bp : BatchProcessor α) : Bool :=
  decide (bp.worklist.length > 0) || decide (bp.outstanding > 0)

/-- The send `bp.finishedSignal <- true`. It is taken not to block; by `Inv.signal`
at most one signal is ever sent into the channel of capacity 1. -/
def sendFinished {α : Type} (bp : BatchProcessor α) : BatchProcessor α :=
  { bp with finishedSignal := bp.finishedSignal + 1, signalsSent := bp.signalsSent + 1 }

/-- The body of `case <-bp.taskDone` in `waitForBatches`. -/
def onTaskDone {α : Type} (bp : BatchProcessor α) : BatchProcessor α :=
  let bp1 := { bp with taskDone := bp.taskDone - 1, outstanding := bp.outstanding - 1 }
  match bp1.worklist.getLast? with
  | some item => enqueueItem { bp1 with worklist := bp1.worklist.dropLast } item
  | none =>
    if !workRemaining bp1 && bp1.loopStopped then
      let bp2 := if !bp1.terminated then sendFinished bp1 else bp1
      { bp2 with exited := true }
    else bp1

/-- The body of `case terminated = <-bp.stopCommand` in `waitForBatches`, for the
received value `terminate`. -/
def onStopCommand {α : Type} (bp : BatchProcessor α) (terminate : Bool) : BatchProcessor α :=
  let bp1 := { bp with terminated := terminate, loopStopped := true }
  let bp2 := if terminate then sendFinished { bp1 with worklist := [] } else bp1
  if terminate && decide (bp2.outstanding = 0) then { bp2 with exited := true }
  else if !workRemaining bp2 then { sendFinished bp2 with exited := true }
  else bp2

/-- What can happen to a batch processor. -/
inductive Event (α : Type) where
  /-- `AddBatch(batch)` meets `case batch := <-bp.batchQueue`. -/
  | AddBatch (batch : List α)
  /-- A caller enters `Finish()`. -/
  | Finish
  /-- A caller enters `Terminate()`. -/
  | Terminate
  /-- A caller blocked in `send_stop` receives from `finishedSignal` and returns. -/
  | wake
  /-- A running callback returns and its goroutine sends on `taskDone`. The send
  is taken not to block; `taskDone_has_room` shows the channel is never full
  when a handler is running. -/
  | handlerDone
  /-- The coordinator takes `case <-bp.taskDone`. -/
  | taskDone
  /-- The coordinator takes `case terminated = <-bp.stopCommand`. -/
  | stopCommand
deriving DecidableEq

/-- One transition; `none` when the event cannot happen in this state. -/
def step {α : Type} (bp : BatchProcessor α) : Event α → Option (BatchProcessor α)
  | .AddBatch batch => if bp.exited then none else some (enqueueBatch bp batch)
  | .Finish => some (Finish bp)
  | .Terminate => some (Terminate bp)
  | .wake =>
    if 0 < bp.waiting ∧ 0 < bp.finishedSignal then
      some { bp with waiting := bp.waiting - 1, finishedSignal := bp.finishedSignal - 1 }
    else none
  | .handlerDone =>
    if 0 < bp.running then
      some { bp with running := bp.running - 1, taskDone := bp.taskDone + 1 }
    else none
  | .taskDone =>
    if bp.exited then none
    else if bp.taskDone = 0 then none
    else some (onTaskDone bp)
  | .stopCommand =>
    if bp.exited then none
    else
      match bp.stopCommand with
      | [] => none
      | terminate :: rest => some (onStopCommand { bp with stopCommand := rest } terminate)

/-- Run a sequence of events, failing as soon as one cannot happen. -/
def exec {α : Type} (bp : BatchProcessor α) : List (Event α) → Option (BatchProcessor α)
  | [] => some bp
  | e :: es => (step bp e).bind fun bp1 => exec bp1 es

/-- The items of all batches accepted along a sequence of events. -/
def submitted {α : Type} : List (Event α) → List α
  | [] => []
  | .AddBatch batch :: es => batch ++ submitted es
  | _ :: es => submitted es

/-- Whether an event is a call of `Finish()` or `Terminate()`. -/
def Event.isStopCall {α : Type} : Event α → Bool
  | .Finish => true
  | .Terminate => true
  | _ => false

/-- Whether an event is a batch arrival. -/
def Event.isAddBatch {α : Type} : Event α → Bool
  | .AddBatch _ => true
  | _ => false

/-- Whether an event is a call of `Terminate()`. -/
def Event.isTerminate {α : Type} : Event α → Bool
  | .Terminate => true
  | _ => false

/-- Whether an event is the coordinator taking a completion notification. -/
def Event.isTaskDone {α : Type} : Event α → Bool
  | .taskDone => true
  | _ => false

/-- The facts that hold in every state a batch processor can reach. -/
structure Inv {α : Type} (bp : BatchProcessor α) : Prop where
  /-- Every counted task is either still running or has its notification buffered. -/
  count : bp.outstanding = (bp.running : Int) + (bp.taskDone : Int)
  /-- The ceiling. -/
  ceiling : bp.outstanding ≤ bp.maxTasks
  /-- Items wait only while every slot is taken. -/
  full : bp.worklist ≠ [] → bp.outstanding = bp.maxTasks
  /-- The coordinator leaves only when stopped and idle. -/
  idle : bp.exited = true → bp.outstanding = 0 ∧ bp.worklist = [] ∧ bp.loopStopped = true
  /-- One command at most travels from `send_stop` to the coordinator. -/
  command : bp.stopCommand.length + (if bp.loopStopped then 1 else 0) = (if bp.stopped then 1 else 0)
  /-- One signal at most is sent: on `Terminate` at once, on `Finish` at exit. -/
  signal : bp.signalsSent = (if bp.loopStopped && (bp.terminated || bp.exited) then 1 else 0)
  /-- Buffered signals were sent. -/
  buffered : bp.finishedSignal ≤ bp.signalsSent

/-- A stopped coordinator that is still in its loop is waiting for a handler. -/
def Busy {α : Type} (bp : BatchProcessor α) : Prop :=
  bp.loopStopped = true → bp.exited = false → 0 < bp.outstanding

/-- A bound on the number of events a stopped coordinator still has to see: two
for every item not yet accounted for and one for every running handler. -/
def effort {α : Type} (bp : BatchProcessor α) : Nat :=
  2 * bp.worklist.length + 2 * bp.outstanding.toNat + bp.running

/-- Whether an event is a handler returning or the coordinator taking its
notification. -/
def Event.isCompletion {α : Type} : Event α → Bool
  | .handlerDone => true
  | .taskDone => true
  | _ => false

end batch

namespace valve

/-- A byte. -/
abbrev Byte := Fin 256

/-- How a call can fail: by returning the error value `ErrOutOfBounds`, or by a
runtime fault of the Go runtime. -/
inductive Fault where
  /-- The error value `ErrOutOfBounds` ("read out of bounds"). -/
  | ErrOutOfBounds
  /-- Runtime fault: index or slice bounds out of range. -/
  | indexOutOfRange
  /-- Runtime fault: integer divide by zero. -/
  | integerDivideByZero
deriving DecidableEq

deriving instance DecidableEq for Except

/-- `PacketBuilder`: an embedded `bytes.Buffer`, represented by its contents. -/
structure PacketBuilder where
  /-- The bytes written so far. -/
  bytes : List Byte
deriving DecidableEq

/-- `PacketBuilder.WriteCString(str)`: `WriteString(str)` then `WriteByte(0)`. A Go
string is the sequence of its bytes. -/
def PacketBuilder.WriteCString (pb : PacketBuilder) (str : List Byte) : PacketBuilder :=
  { bytes := (pb.bytes ++ str) ++ [0] }

/-- `PacketBuilder.WriteBytes(bytes)`. -/
def PacketBuilder.WriteBytes (pb : PacketBuilder) (bytes : List Byte) : PacketBuilder :=
  { bytes := pb.bytes ++ bytes }

/-- `PacketReader`. -/
structure PacketReader where
  /-- Field `buffer`. -/
  buffer : List Byte
  /-- Field `pos`. -/
  pos : Nat
deriving DecidableEq

/-- `NewPacketReader(packet)`. -/
def NewPacketReader (packet : List Byte) : PacketReader :=
  { buffer := packet, pos := 0 }

/-- `PacketReader.canRead(size)`: the error it returns, if any. -/
def PacketReader.canRead (pr : PacketReader) (size : Nat) : Option Fault :=
  if size + pr.pos > pr.buffer.length then some Fault.ErrOutOfBounds else none

/-- `PacketReader.Pos()`. -/
def PacketReader.Pos (pr : PacketReader) : Nat :=
  pr.pos

/-- `PacketReader.More()`. -/
def PacketReader.More (pr : PacketReader) : Bool :=
  decide (pr.pos < pr.buffer.length)

/-- The slice expression `pr.buffer[pr.pos:]`, which faults when `pos` is past
the end. -/
def PacketReader.tail (pr : PacketReader) : Except Fault (List Byte) :=
  if pr.pos ≤ pr.buffer.length then .ok (pr.buffer.drop pr.pos) else .error Fault.indexOutOfRange

/-- `binary.BigEndian.Uint16(b)`: `uint16(b[1]) | uint16(b[0])<<8` after the bounds
check `_ = b[1]`. -/
def BigEndian_Uint16 : List Byte → Except Fault Nat
  | b0 :: b1 :: _ => .ok (b1.val ||| (b0.val <<< 8))
  | _ => .error Fault.indexOutOfRange

/-- `binary.LittleEndian.Uint16(b)`. -/
def LittleEndian_Uint16 : List Byte → Except Fault Nat
  | b0 :: b1 :: _ => .ok (b0.val ||| (b1.val <<< 8))
  | _ => .error Fault.indexOutOfRange

/-- `binary.LittleEndian.Uint32(b)`. -/
def LittleEndian_Uint32 : List Byte → Except Fault Nat
  | b0 :: b1 :: b2 :: b3 :: _ =>
    .ok (b0.val ||| (b1.val <<< 8) ||| (b2.val <<< 16) ||| (b3.val <<< 24))
  | _ => .error Fault.indexOutOfRange

/-- `binary.LittleEndian.Uint64(b)`. -/
def LittleEndian_Uint64 : List Byte → Except Fault Nat
  | b0 :: b1 :: b2 :: b3 :: b4 :: b5 :: b6 :: b7 :: _ =>
    .ok (b0.val ||| (b1.val <<< 8) ||| (b2.val <<< 16) ||| (b3.val <<< 24) |||
      (b4.val <<< 32) ||| (b5.val <<< 40) ||| (b6.val <<< 48) ||| (b7.val <<< 56))
  | _ => .error Fault.indexOutOfRange

/-- The conversion `int32(u)` of a `uint32`. -/
def toInt32 (u : Nat) : Int :=
  if u % 2 ^ 32 < 2 ^ 31 then ((u % 2 ^ 32 : Nat) : Int) else ((u % 2 ^ 32 : Nat) : Int) - 2 ^ 32

/-- A `float32`, represented by its IEEE 754 bit pattern. -/
structure Float32 where
  /-- The 32 bits of the value. -/
  bits : Nat
deriving DecidableEq

/-- `math.Float32frombits(b)`. -/
def Float32frombits (b : Nat) : Float32 :=
  { bits := b }

/-- The sign bit of an IEEE 754 single, bit 31. -/
def Float32.sign (f : Float32) : Nat :=
  f.bits / 2147483648 % 2

/-- The biased exponent of an IEEE 754 single, bits 23 to 30. -/
def Float32.exponent (f : Float32) : Nat :=
  f.bits / 8388608 % 256

/-- The fraction of an IEEE 754 single, bits 0 to 22. -/
def Float32.fraction (f : Float32) : Nat :=
  f.bits % 8388608

/-- A read that decodes `width` bytes with `decode` from `pr.buffer[pr.pos:]` and
then advances the cursor: the common shape of `ReadPort` after its check and of
`ReadUint16`, `ReadUint32`, `ReadUint64`. A fault leaves the reader as it was. -/
def PacketReader.decodeAt (pr : PacketReader) (decode : List Byte → Except Fault Nat)
    (width : Nat) : Except Fault Nat × PacketReader :=
  match pr.tail with
  | .error f => (.error f, pr)
  | .ok b =>
    match decode b with
    | .error f => (.error f, pr)
    | .ok v => (.ok v, { pr with pos := pr.pos + width })

/-- `PacketReader.ReadIPv4()`; `net.IPv4len` is 4. The result pairs what the call
returns with the reader it leaves behind. -/
def PacketReader.ReadIPv4 (pr : PacketReader) : Except Fault (List Byte) × PacketReader :=
  match pr.canRead 4 with
  | some err => (.error err, pr)
  | none => (.ok ((pr.buffer.drop pr.pos).take 4), { pr with pos := pr.pos + 4 })

/-- `PacketReader.ReadPort()`. -/
def PacketReader.ReadPort (pr : PacketReader) : Except Fault Nat × PacketReader :=
  match pr.canRead 2 with
  | some err => (.error err, pr)
  | none => pr.decodeAt BigEndian_Uint16 2

/-- `PacketReader.ReadUint8()`: the index expression `pr.buffer[pr.pos]` faults
when out of range. -/
def PacketReader.ReadUint8 (pr : PacketReader) : Except Fault Nat × PacketReader :=
  match pr.buffer.get? pr.pos with
  | some b => (.ok b.val, { pr with pos := pr.pos + 1 })
  | none => (.error Fault.indexOutOfRange, pr)

/-- `PacketReader.ReadUint16()`. -/
def PacketReader.ReadUint16 (pr : PacketReader) : Except Fault Nat × PacketReader :=
  pr.decodeAt LittleEndian_Uint16 2

/-- `PacketReader.ReadUint32()`. -/
def PacketReader.ReadUint32 (pr : PacketReader) : Except Fault Nat × PacketReader :=
  pr.decodeAt LittleEndian_Uint32 4

/-- `PacketReader.ReadInt32()`. -/
def PacketReader.ReadInt32 (pr : PacketReader) : Except Fault Int × PacketReader :=
  (pr.ReadUint32.1.map toInt32, pr.ReadUint32.2)

/-- `PacketReader.ReadUint64()`. -/
def PacketReader.ReadUint64 (pr : PacketReader) : Except Fault Nat × PacketReader :=
  pr.decodeAt LittleEndian_Uint64 8

/-- `PacketReader.ReadFloat32()`. -/
def PacketReader.ReadFloat32 (pr : PacketReader) : Except Fault Float32 × PacketReader :=
  (pr.ReadUint32.1.map Float32frombits, pr.ReadUint32.2)

/-- The value of a byte sequence read least significant byte first. -/
def littleEndianValue : List Byte → Nat
  | [] => 0
  | b :: bs => b.val + 256 * littleEndianValue bs

/-- The value of a byte sequence read most significant byte first. -/
def bigEndianValue (bs : List Byte) : Nat :=
  littleEndianValue bs.reverse

/-- The `count` bytes at the cursor. -/
def PacketReader.next (pr : PacketReader) (count : Nat) : List Byte :=
  (pr.buffer.drop pr.pos).take count

/-- The number of bytes left after the cursor. -/
def PacketReader.remaining (pr : PacketReader) : Nat :=
  pr.buffer.length - pr.pos

/-- The loop of `TryReadString`. The list is `pr.buffer[pr.pos:]`: it is non-empty
exactly when `pr.pos < len(pr.buffer)`, and its head is `pr.buffer[pr.pos]`. -/
def PacketReader.tryReadLoop (buffer : List Byte) (start : Nat) :
    List Byte → Nat → (List Byte × Bool) × PacketReader
  | [], pos => (([], false), { buffer := buffer, pos := pos })
  | b :: rest, pos =>
    if b = 0 then
      (((buffer.drop start).take (pos + 1 - 1 - start), true), { buffer := buffer, pos := pos + 1 })
    else PacketReader.tryReadLoop buffer start rest (pos + 1)

/-- `PacketReader.TryReadString()`. -/
def PacketReader.TryReadString (pr : PacketReader) : (List Byte × Bool) × PacketReader :=
  PacketReader.tryReadLoop pr.buffer pr.pos (pr.buffer.drop pr.pos) pr.pos

/-- The fields of `UdpSocket` that the rate limiter uses; durations and instants
are nanosecond counts. -/
structure UdpSocket where
  /-- Field `timeout`. -/
  timeout : Int
  /-- Field `wait`, the minimum spacing between sends. -/
  wait : Int
  /-- Field `next`, the instant before which nothing is sent. -/
  next : Int
deriving DecidableEq

/-- The constant `time.Second`. -/
def Second : Int := 1000000000

/-- The constant `time.Minute`. -/
def Minute : Int := 60 * Second

/-- `UdpSocket.SetRateLimit(ratePerMinute)`: `(time.Minute / time.Duration(r)) +
time.Second`, with Go's truncating integer division, which faults on a zero
divisor. -/
def UdpSocket.SetRateLimit (us : UdpSocket) (ratePerMinute : Int) : Except Fault UdpSocket :=
  if ratePerMinute = 0 then .error Fault.integerDivideByZero
  else .ok { us with wait := Int.tdiv Minute ratePerMinute + Second }

/-- `UdpSocket.enforceRateLimit()` at instant `now`: how long it sleeps. -/
def UdpSocket.enforceRateLimit (us : UdpSocket) (now : Int) : Int :=
  if us.wait = 0 then 0
  else if us.next - now > 0 then us.next - now else 0

/-- `UdpSocket.setNextQueryTime()` at instant `now`. -/
def UdpSocket.setNextQueryTime (us : UdpSocket) (now : Int) : UdpSocket :=
  if us.wait ≠ 0 then { us with next := now + us.wait } else us

/-- An error returned by the connection's `Write`. -/
inductive NetError where
  /-- The write deadline passed. -/
  | timeout
  /-- Any other failure of the connection. -/
  | other
deriving DecidableEq

/-- What one call of `UdpSocket.Send` does, on a clock of nanoseconds. -/
structure SendOutcome where
  /-- The error `Send` returns, which is the one `Write` returned. -/
  err : Option NetError
  /-- The deadline given to `SetWriteDeadline`, if any. -/
  deadline : Option Int
  /-- The instant at which `Write` is called. -/
  transmitAt : Int
  /-- The instant at which the deferred `setNextQueryTime` runs and `Send` returns. -/
  returnAt : Int
  /-- The socket the call leaves behind. -/
  socket : UdpSocket
deriving DecidableEq

/-- `UdpSocket.Send(bytes)`. The clock reads `now` when `enforceRateLimit` computes
`time.Until(us.next)`; `time.Sleep` pauses for at least the time asked, and
`lag` is whatever more passes before `Write` is called; `Write` takes
`writeTime` and returns `err`; the deferred `setNextQueryTime` runs last. -/
def UdpSocket.Send (us : UdpSocket) (now : Int) (lag writeTime : Nat) (err : Option NetError) :
    SendOutcome :=
  let transmitAt := now + us.enforceRateLimit now + lag
  let returnAt := transmitAt + writeTime
  { err := err
    deadline := if us.timeout > 0 then some (transmitAt + us.timeout) else none
    transmitAt := transmitAt
    returnAt := returnAt
    socket := us.setNextQueryTime returnAt }

/-- The value a 64-bit signed integer takes when an exact result wraps around. -/
def wrapInt64 (x : Int) : Int :=
  (x + 9223372036854775808) % 18446744073709551616 - 9223372036854775808

/-- `PacketReader.Slice(count)`. The sum of `count` and `pos` is computed in a
64-bit `int`, both in `canRead` and in the slice expression: `nil` when
`canRead(count)` fails, a fault of `pr.buffer[pr.pos : pr.pos+count]` when the
upper bound is below the lower one, otherwise the bytes up to that bound. -/
def PacketReader.Slice (pr : PacketReader) (count : Int) :
    Except Fault (Option (List Byte)) × PacketReader :=
  if wrapInt64 (count + (pr.pos : Int)) > (pr.buffer.length : Int) then (.ok none, pr)
  else if wrapInt64 ((pr.pos : Int) + count) < (pr.pos : Int) then
    (.error Fault.indexOutOfRange, pr)
  else
    (.ok (some ((pr.buffer.drop pr.pos).take
        (wrapInt64 ((pr.pos : Int) + count) - (pr.pos : Int)).toNat)),
      { pr with pos := (wrapInt64 ((pr.pos : Int) + count)).toNat })

/-- The loop of `ReadString`. The list is `pr.buffer[pr.pos:]`; when it runs out,
the index expression `pr.buffer[pr.pos]` faults, with the cursor where the
loop has moved it. -/
def PacketReader.readStringLoop (buffer : List Byte) (start : Nat) :
    List Byte → Nat → Except Fault (List Byte) × PacketReader
  | [], pos => (.error Fault.indexOutOfRange, { buffer := buffer, pos := pos })
  | b :: rest, pos =>
    if b = 0 then
      (.ok ((buffer.drop start).take (pos + 1 - 1 - start)), { buffer := buffer, pos := pos + 1 })
    else PacketReader.readStringLoop buffer start rest (pos + 1)

/-- `PacketReader.ReadString()`. -/
def PacketReader.ReadString (pr : PacketReader) : Except Fault (List Byte) × PacketReader :=
  PacketReader.readStringLoop pr.buffer pr.pos (pr.buffer.drop pr.pos) pr.pos

/-- The methods of `PacketReader` that can move the cursor. -/
inductive ReadCall where
  /-- `Slice(count)`. -/
  | Slice (count : Int)
  /-- `ReadIPv4()`. -/
  | ReadIPv4
  /-- `ReadPort()`. -/
  | ReadPort
  /-- `ReadUint8()`. -/
  | ReadUint8
  /-- `ReadUint16()`. -/
  | ReadUint16
  /-- `ReadUint32()`. -/
  | ReadUint32
  /-- `ReadInt32()`. -/
  | ReadInt32
  /-- `ReadUint64()`. -/
  | ReadUint64
  /-- `ReadFloat32()`. -/
  | ReadFloat32
  /-- `TryReadString()`. -/
  | TryReadString
  /-- `ReadString()`. -/
  | ReadString
deriving DecidableEq

/-- The reader a call leaves behind. -/
def PacketReader.after (pr : PacketReader) : ReadCall → PacketReader
  | .Slice count => (pr.Slice count).2
  | .ReadIPv4 => pr.ReadIPv4.2
  | .ReadPort => pr.ReadPort.2
  | .ReadUint8 => pr.ReadUint8.2
  | .ReadUint16 => pr.ReadUint16.2
  | .ReadUint32 => pr.ReadUint32.2
  | .ReadInt32 => pr.ReadInt32.2
  | .ReadUint64 => pr.ReadUint64.2
  | .ReadFloat32 => pr.ReadFloat32.2
  | .TryReadString => pr.TryReadString.2
  | .ReadString => pr.ReadString.2

/-- The reader a sequence of calls leaves behind. -/
def PacketReader.afterAll (pr : PacketReader) : List ReadCall → PacketReader
  | [] => pr
  | c :: cs => (pr.after c).afterAll cs

end valve

namespace batch

variable {α : Type}

theorem inv_New (C : Int) (bp0 : BatchProcessor α) (h : NewBatchProcessor C = some bp0) :
    Inv bp0 := by
  unfold NewBatchProcessor at h
  split at h
  · simp at h
  · simp only [Option.some.injEq] at h
    subst h
    constructor
    all_goals simp
    omega

theorem enqueueBatch_exited (bp : BatchProcessor α) (xs : List α) :
    (enqueueBatch bp xs).exited = bp.exited := by
  induction xs generalizing bp with
  | nil => rfl
  | cons x xs ih =>
    simp only [enqueueBatch]
    split
    · rw [ih]; rfl
    · rfl

theorem inv_enqueueBatch (bp : BatchProcessor α) (xs : List α) (hx : bp.exited = false)
    (h : Inv bp) : Inv (enqueueBatch bp xs) := by
  induction xs generalizing bp with
  | nil => exact h
  | cons x xs ih =>
    simp only [enqueueBatch]
    split
    · rename_i hlt
      apply ih
      · exact hx
      · have hw : bp.worklist = [] := by
          by_contra hne
          have := h.full hne
          omega
        constructor
        · have := h.count; simp [enqueueItem]; omega
        · have := h.ceiling; simp [enqueueItem]; omega
        · intro hne; simp [enqueueItem, hw] at hne
        · intro he; simp [enqueueItem, hx] at he
        · exact h.command
        · exact h.signal
        · exact h.buffered
    · rename_i hge
      constructor
      · exact h.count
      · exact h.ceiling
      · intro _
        have := h.ceiling
        show bp.outstanding = bp.maxTasks
        omega
      · intro he; simp [hx] at he
      · exact h.command
      · exact h.signal
      · exact h.buffered

theorem inv_onTaskDone (bp : BatchProcessor α) (hx : bp.exited = false) (ht : bp.taskDone ≠ 0)
    (h : Inv bp) : Inv (onTaskDone bp) := by
  obtain ⟨h1, h2, h3, h4, h5, h6, h7⟩ := h
  unfold onTaskDone
  cases hw : bp.worklist.getLast? with
  | some item =>
    have hne : bp.worklist ≠ [] := by
      intro hnil; simp [hnil] at hw
    have hfull := h3 hne
    simp only [hw]
    constructor
    · simp [enqueueItem]; omega
    · simp [enqueueItem]; omega
    · intro _; simp [enqueueItem]; omega
    · intro he; simp [enqueueItem, hx] at he
    · exact h5
    · exact h6
    · exact h7
  | none =>
    have hnil : bp.worklist = [] := by simpa using hw
    simp only [hw]
    split
    · rename_i hcond
      simp only [workRemaining, hnil, Bool.and_eq_true, Bool.not_eq_true', Bool.or_eq_false_iff,
        decide_eq_false_iff_not, List.length_nil, gt_iff_lt, Nat.lt_irrefl, not_false_eq_true,
        true_and, not_lt] at hcond
      obtain ⟨ho, hs⟩ := hcond
      have ho0 : bp.outstanding - 1 = 0 := by omega
      cases hterm : bp.terminated
      · simp [hterm, hs, hx] at h5 h6
        constructor
        · simp [sendFinished]; omega
        · simp [sendFinished]; omega
        · intro hne; simp [sendFinished, hnil] at hne
        · intro _; simp [sendFinished, hnil, hs]; omega
        · simp [sendFinished, hs]; exact h5
        · simp [sendFinished, hs, hterm, h6]
        · simp [sendFinished, h6]; omega
      · simp [hterm, hs, hx] at h5 h6
        constructor
        · simp; omega
        · simp; omega
        · intro hne; simp [hnil] at hne
        · intro _; simp [hnil, hs]; omega
        · simp [hs]; exact h5
        · simp [hs, hterm, h6]
        · simp [h6]; omega
    · constructor
      · show bp.outstanding - 1 = (bp.running : Int) + ((bp.taskDone - 1 : Nat) : Int); omega
      · show bp.outstanding - 1 ≤ bp.maxTasks; omega
      · intro hne; exact absurd hnil hne
      · intro he; simp [hx] at he
      · exact h5
      · exact h6
      · exact h7

theorem inv_onStopCommand (bp : BatchProcessor α) (t : Bool) (rest : List Bool)
    (hx : bp.exited = false) (hc : bp.stopCommand = t :: rest) (h : Inv bp) :
    Inv (onStopCommand { bp with stopCommand := rest } t) := by
  obtain ⟨h1, h2, h3, h4, h5, h6, h7⟩ := h
  have hls : bp.loopStopped = false := by
    cases hl : bp.loopStopped
    · rfl
    · rw [hc, hl] at h5
      simp only [List.length_cons, if_true] at h5
      split at h5 <;> omega
  have hst : bp.stopped = true := by
    cases hl : bp.stopped
    · rw [hc, hl] at h5
      simp at h5
    · rfl
  have hrest : rest = [] := by
    rw [hc, hls, hst] at h5
    simpa using h5
  have hsig : bp.signalsSent = 0 := by simpa [hls] using h6
  have hbuf : bp.finishedSignal = 0 := by omega
  have hnn : 0 ≤ bp.outstanding := by omega
  subst hrest
  unfold onStopCommand
  cases t with
  | true =>
    by_cases ho : bp.outstanding = 0
    · simp only [if_true, sendFinished, Bool.true_and, ho, decide_True]
      constructor
      · simp; omega
      · simp; omega
      · intro hne; simp at hne
      · intro _; simp
      · simp [hst]
      · simp [hsig]
      · simp [hsig, hbuf]
    · have hpos : 0 < bp.outstanding := by omega
      simp only [if_true, sendFinished, Bool.true_and, ho, decide_False, workRemaining,
        List.length_nil, gt_iff_lt, Nat.lt_irrefl, Bool.false_or, hpos, decide_True,
        Bool.not_true, Bool.false_eq_true, if_false]
      constructor
      · exact h1
      · exact h2
      · intro hne; simp at hne
      · intro he; simp [hx] at he
      · simp [hst]
      · simp [hsig]
      · simp [hsig, hbuf]
  | false =>
    simp only [Bool.false_eq_true, if_false, Bool.false_and]
    split
    · rename_i hcond
      simp only [workRemaining, Bool.not_eq_true', Bool.or_eq_false_iff, decide_eq_false_iff_not,
        gt_iff_lt, not_lt] at hcond
      obtain ⟨hwl, ho⟩ := hcond
      have hnil : bp.worklist = [] := List.eq_nil_of_length_eq_zero (by omega)
      constructor
      · simp [sendFinished]; omega
      · simp [sendFinished]; omega
      · intro hne; simp [sendFinished, hnil] at hne
      · intro _; simp [sendFinished, hnil]; omega
      · simp [sendFinished, hst]
      · simp [sendFinished, hsig]
      · simp [sendFinished, hsig, hbuf]
    · constructor
      · exact h1
      · exact h2
      · exact h3
      · intro he; simp [hx] at he
      · simp [hst]
      · simp [hsig, hx]
      · simp [hsig, hbuf]

theorem inv_send_stop (bp : BatchProcessor α) (t : Bool) (h : Inv bp) : Inv (send_stop bp t) := by
  unfold send_stop
  split
  · exact h
  · rename_i hs
    obtain ⟨h1, h2, h3, h4, h5, h6, h7⟩ := h
    have hs0 : bp.stopped = false := by simpa using hs
    rw [hs0] at h5
    have hl : bp.loopStopped = false := by
      cases hl : bp.loopStopped
      · rfl
      · rw [hl] at h5; simp at h5
    have hc : bp.stopCommand = [] := by
      rw [hl] at h5
      simpa using h5
    constructor
    · exact h1
    · exact h2
    · exact h3
    · exact h4
    · simp [hc, hl]
    · exact h6
    · exact h7

theorem inv_step (bp bp1 : BatchProcessor α) (e : Event α) (hs : step bp e = some bp1)
    (h : Inv bp) : Inv bp1 := by
  cases e with
  | AddBatch batch =>
    simp only [step] at hs
    split at hs
    · simp at hs
    · rename_i hx
      simp only [Option.some.injEq] at hs
      subst hs
      exact inv_enqueueBatch bp batch (by simpa using hx) h
  | Finish =>
    simp only [step, Option.some.injEq] at hs
    subst hs
    exact inv_send_stop bp false h
  | Terminate =>
    simp only [step, Option.some.injEq] at hs
    subst hs
    exact inv_send_stop bp true h
  | wake =>
    simp only [step] at hs
    split at hs
    · rename_i hc
      simp only [Option.some.injEq] at hs
      subst hs
      obtain ⟨h1, h2, h3, h4, h5, h6, h7⟩ := h
      constructor
      · exact h1
      · exact h2
      · exact h3
      · exact h4
      · exact h5
      · exact h6
      · show bp.finishedSignal - 1 ≤ bp.signalsSent; omega
    · simp at hs
  | handlerDone =>
    simp only [step] at hs
    split at hs
    · rename_i hc
      simp only [Option.some.injEq] at hs
      subst hs
      obtain ⟨h1, h2, h3, h4, h5, h6, h7⟩ := h
      constructor
      · show bp.outstanding = ((bp.running - 1 : Nat) : Int) + ((bp.taskDone + 1 : Nat) : Int)
        omega
      · exact h2
      · exact h3
      · exact h4
      · exact h5
      · exact h6
      · exact h7
    · simp at hs
  | taskDone =>
    simp only [step] at hs
    split at hs
    · simp at hs
    · rename_i hx
      split at hs
      · simp at hs
      · rename_i ht
        simp only [Option.some.injEq] at hs
        subst hs
        exact inv_onTaskDone bp (by simpa using hx) ht h
  | stopCommand =>
    simp only [step] at hs
    split at hs
    · simp at hs
    · rename_i hx
      split at hs
      · simp at hs
      · rename_i t rest hc
        simp only [Option.some.injEq] at hs
        subst hs
        exact inv_onStopCommand bp t rest (by simpa using hx) hc h

theorem inv_exec (evs : List (Event α)) (bp bp1 : BatchProcessor α)
    (hs : exec bp evs = some bp1) (h : Inv bp) : Inv bp1 := by
  induction evs generalizing bp with
  | nil =>
    simp only [exec, Option.some.injEq] at hs
    subst hs
    exact h
  | cons e es ih =>
    simp only [exec] at hs
    cases hstep : step bp e with
    | none => simp [hstep] at hs
    | some bp2 =>
      simp only [hstep, Option.some_bind] at hs
      exact ih bp2 hs (inv_step bp bp2 e hstep h)

theorem enqueueBatch_maxTasks (bp : BatchProcessor α) (xs : List α) :
    (enqueueBatch bp xs).maxTasks = bp.maxTasks := by
  induction xs generalizing bp with
  | nil => rfl
  | cons x xs ih =>
    simp only [enqueueBatch]
    split
    · rw [ih]; rfl
    · rfl

theorem onTaskDone_maxTasks (bp : BatchProcessor α) : (onTaskDone bp).maxTasks = bp.maxTasks := by
  unfold onTaskDone
  cases hw : bp.worklist.getLast? with
  | some item => simp only [hw]; rfl
  | none =>
    simp only [hw]
    split
    · cases bp.terminated <;> rfl
    · rfl

theorem onStopCommand_maxTasks (bp : BatchProcessor α) (t : Bool) :
    (onStopCommand bp t).maxTasks = bp.maxTasks := by
  unfold onStopCommand
  cases t
  · simp only [Bool.false_eq_true, if_false, Bool.false_and]
    split <;> rfl
  · simp only [if_true, Bool.true_and]
    split
    · rfl
    · split <;> rfl

theorem send_stop_maxTasks (bp : BatchProcessor α) (t : Bool) :
    (send_stop bp t).maxTasks = bp.maxTasks := by
  unfold send_stop
  split <;> rfl

theorem step_maxTasks (bp bp1 : BatchProcessor α) (e : Event α) (hs : step bp e = some bp1) :
    bp1.maxTasks = bp.maxTasks := by
  cases e with
  | AddBatch batch =>
    simp only [step] at hs
    split at hs
    · simp at hs
    · simp only [Option.some.injEq] at hs
      subst hs
      exact enqueueBatch_maxTasks bp batch
  | Finish =>
    simp only [step, Option.some.injEq] at hs
    subst hs
    exact send_stop_maxTasks bp false
  | Terminate =>
    simp only [step, Option.some.injEq] at hs
    subst hs
    exact send_stop_maxTasks bp true
  | wake =>
    simp only [step] at hs
    split at hs
    · simp only [Option.some.injEq] at hs
      subst hs
      rfl
    · simp at hs
  | handlerDone =>
    simp only [step] at hs
    split at hs
    · simp only [Option.some.injEq] at hs
      subst hs
      rfl
    · simp at hs
  | taskDone =>
    simp only [step] at hs
    split at hs
    · simp at hs
    · split at hs
      · simp at hs
      · simp only [Option.some.injEq] at hs
        subst hs
        exact onTaskDone_maxTasks bp
  | stopCommand =>
    simp only [step] at hs
    split at hs
    · simp at hs
    · split at hs
      · simp at hs
      · simp only [Option.some.injEq] at hs
        subst hs
        rw [onStopCommand_maxTasks]

theorem exec_maxTasks (evs : List (Event α)) (bp bp1 : BatchProcessor α)
    (hs : exec bp evs = some bp1) : bp1.maxTasks = bp.maxTasks := by
  induction evs generalizing bp with
  | nil =>
    simp only [exec, Option.some.injEq] at hs
    subst hs
    rfl
  | cons e es ih =>
    simp only [exec] at hs
    cases hstep : step bp e with
    | none => simp [hstep] at hs
    | some bp2 =>
      simp only [hstep, Option.some_bind] at hs
      rw [ih bp2 hs, step_maxTasks bp bp2 e hstep]

theorem New_maxTasks (C : Int) (bp0 : BatchProcessor α) (h : NewBatchProcessor C = some bp0) :
    bp0.maxTasks = C := by
  unfold NewBatchProcessor at h
  split at h
  · simp at h
  · simp only [Option.some.injEq] at h
    subst h
    rfl

/-- The send on `taskDone` by a returning handler never blocks: while a handler
is running the channel, of capacity `maxTasks`, is not full. -/
theorem taskDone_has_room (bp : BatchProcessor α) (hinv : Inv bp) (hr : 0 < bp.running) :
    (bp.taskDone : Int) < bp.maxTasks := by
  have h1 := hinv.count
  have h2 := hinv.ceiling
  omega

/-- C1: for every ceiling `C ≥ 1` and every sequence of events (batch arrivals of
any lengths, handler completions, completion notifications, stop commands of
either kind), the state reached satisfies `0 ≤ outstanding ≤ maxTasks = C`; the
handlers running at that moment are no more than `outstanding`, hence no more
than `C`; and whenever a completion notification is there to be taken,
`outstanding` is at least 1, so the decrement keeps it non-negative. -/
theorem outstanding_within_ceiling (C : Int) (_hC : 1 ≤ C) (evs : List (Event α))
    (bp0 bp : BatchProcessor α) (h0 : NewBatchProcessor C = some bp0)
    (h : exec bp0 evs = some bp) :
    0 ≤ bp.outstanding ∧ bp.outstanding ≤ bp.maxTasks ∧ bp.maxTasks = C ∧
      (bp.running : Int) ≤ bp.outstanding ∧ (bp.running : Int) ≤ C ∧
      (bp.taskDone ≠ 0 → 1 ≤ bp.outstanding) := by
  have hinv := inv_exec evs bp0 bp h (inv_New C bp0 h0)
  have hm : bp.maxTasks = C := by rw [exec_maxTasks evs bp0 bp h, New_maxTasks C bp0 h0]
  have h1 := hinv.count
  have h2 := hinv.ceiling
  refine ⟨?_, h2, hm, ?_, ?_, ?_⟩ <;> omega

/-- Witness for C1: ceiling 2, a batch of three items, one completion. -/
theorem outstanding_within_ceiling_witness :
    ∃ bp0 bp : BatchProcessor Nat, NewBatchProcessor 2 = some bp0 ∧
      exec bp0 [.AddBatch [7, 8, 9], .handlerDone, .taskDone] = some bp ∧
      bp.running = 2 ∧
      (0 ≤ bp.outstanding ∧ bp.outstanding ≤ bp.maxTasks ∧ bp.maxTasks = 2 ∧
        (bp.running : Int) ≤ bp.outstanding ∧ (bp.running : Int) ≤ 2 ∧
        (bp.taskDone ≠ 0 → 1 ≤ bp.outstanding)) :=
  ⟨_, _, rfl, rfl, rfl,
    outstanding_within_ceiling 2 (by decide) [.AddBatch [7, 8, 9], .handlerDone, .taskDone] _ _
      rfl rfl⟩

theorem enqueueBatch_perm (bp : BatchProcessor α) (xs : List α) :
    ((enqueueBatch bp xs).dispatched ++ (enqueueBatch bp xs).worklist).Perm
      (bp.dispatched ++ bp.worklist ++ xs) := by
  induction xs generalizing bp with
  | nil => simp [enqueueBatch]
  | cons x xs ih =>
    simp only [enqueueBatch]
    split
    · refine (ih (enqueueItem bp x)).trans ?_
      simp only [enqueueItem, List.append_assoc, List.singleton_append]
      refine List.Perm.append_left _ ?_
      exact List.perm_middle.symm
    · simp

theorem enqueueBatch_other (bp : BatchProcessor α) (xs : List α) :
    (enqueueBatch bp xs).stopCommand = bp.stopCommand ∧
      (enqueueBatch bp xs).terminated = bp.terminated ∧
      (enqueueBatch bp xs).signalsSent = bp.signalsSent ∧
      (enqueueBatch bp xs).stopped = bp.stopped ∧
      (enqueueBatch bp xs).loopStopped = bp.loopStopped := by
  induction xs generalizing bp with
  | nil => simp [enqueueBatch]
  | cons x xs ih =>
    simp only [enqueueBatch]
    split
    · have := ih (enqueueItem bp x)
      simpa [enqueueItem] using this
    · simp

/-- A run in which `Terminate()` is never called: no forceful command is pending
or was received, and a signal has been sent only by a coordinator that left with
an empty worklist. -/
theorem graceful_step (bp bp1 : BatchProcessor α) (e : Event α) (hs : step bp e = some bp1)
    (he : e.isTerminate = false) (hq : true ∉ bp.stopCommand) (ht : bp.terminated = false)
    (hsig : 0 < bp.signalsSent → bp.worklist = [] ∧ bp.exited = true) :
    true ∉ bp1.stopCommand ∧ bp1.terminated = false ∧
      (0 < bp1.signalsSent → bp1.worklist = [] ∧ bp1.exited = true) ∧
      (bp1.dispatched ++ bp1.worklist).Perm (bp.dispatched ++ bp.worklist ++ submitted [e]) := by
  cases e with
  | AddBatch batch =>
    simp only [step] at hs
    split at hs
    · simp at hs
    · rename_i hx
      simp only [Option.some.injEq] at hs
      subst hs
      obtain ⟨h1, h2, h3, -, -⟩ := enqueueBatch_other bp batch
      refine ⟨by rw [h1]; exact hq, by rw [h2]; exact ht, ?_, ?_⟩
      · intro hpos
        rw [h3] at hpos
        have := (hsig hpos).2
        simp [this] at hx
      · simpa [submitted] using enqueueBatch_perm bp batch
  | Finish =>
    simp only [step, Option.some.injEq, Finish, send_stop] at hs
    subst hs
    split
    · exact ⟨hq, ht, hsig, by simp [submitted]⟩
    · refine ⟨?_, ht, hsig, by simp [submitted]⟩
      simpa using hq
  | Terminate => simp [Event.isTerminate] at he
  | wake =>
    simp only [step] at hs
    split at hs
    · simp only [Option.some.injEq] at hs
      subst hs
      exact ⟨hq, ht, hsig, by simp [submitted]⟩
    · simp at hs
  | handlerDone =>
    simp only [step] at hs
    split at hs
    · simp only [Option.some.injEq] at hs
      subst hs
      exact ⟨hq, ht, hsig, by simp [submitted]⟩
    · simp at hs
  | taskDone =>
    simp only [step] at hs
    split at hs
    · simp at hs
    · rename_i hx
      split at hs
      · simp at hs
      · simp only [Option.some.injEq] at hs
        subst hs
        have hx0 : bp.exited = false := by simpa using hx
        have hs0 : bp.signalsSent = 0 := by
          by_contra hne
          have := (hsig (by omega)).2
          simp [this] at hx0
        unfold onTaskDone
        cases hw : bp.worklist.getLast? with
        | some item =>
          simp only [hw]
          have hsplit := List.dropLast_append_getLast? item (by simpa using hw)
          refine ⟨hq, ht, ?_, ?_⟩
          · intro hpos
            simp [enqueueItem, hs0] at hpos
          · simp only [enqueueItem, submitted, List.append_nil, List.append_assoc]
            refine List.Perm.append_left _ ?_
            rw [← hsplit]
            simpa using (@List.perm_append_comm _ [item] bp.worklist.dropLast)
        | none =>
          have hnil : bp.worklist = [] := by simpa using hw
          simp only [hw]
          split
          · simp only [ht, Bool.not_false, if_true, sendFinished]
            refine ⟨hq, trivial, fun _ => ⟨hnil, trivial⟩, by simp [submitted]⟩
          · refine ⟨hq, ht, ?_, by simp [submitted]⟩
            intro hpos
            simp [hs0] at hpos
  | stopCommand =>
    simp only [step] at hs
    split at hs
    · simp at hs
    · rename_i hx
      split at hs
      · simp at hs
      · rename_i t rest hc
        simp only [Option.some.injEq] at hs
        subst hs
        have hx0 : bp.exited = false := by simpa using hx
        have hs0 : bp.signalsSent = 0 := by
          by_contra hne
          have := (hsig (by omega)).2
          simp [this] at hx0
        have htf : t = false := by
          cases t
          · rfl
          · rw [hc] at hq; simp at hq
        have hrest : true ∉ rest := by
          rw [hc] at hq
          simp at hq
          exact hq.2
        subst htf
        unfold onStopCommand
        simp only [Bool.false_eq_true, if_false, Bool.false_and]
        split
        · rename_i hcond
          simp only [workRemaining, Bool.not_eq_true', Bool.or_eq_false_iff,
            decide_eq_false_iff_not, gt_iff_lt, not_lt] at hcond
          have hnil : bp.worklist = [] := List.eq_nil_of_length_eq_zero (by omega)
          exact ⟨hrest, rfl, fun _ => ⟨hnil, rfl⟩, by simp [submitted, sendFinished]⟩
        · refine ⟨hrest, rfl, ?_, by simp [submitted]⟩
          intro hpos
          simp [hs0] at hpos

theorem submitted_cons (e : Event α) (es : List (Event α)) :
    submitted (e :: es) = submitted [e] ++ submitted es := by
  cases e <;> simp [submitted]

theorem graceful_exec (evs : List (Event α)) (bp bp1 : BatchProcessor α)
    (hs : exec bp evs = some bp1) (he : ∀ e ∈ evs, e.isTerminate = false)
    (hq : true ∉ bp.stopCommand) (ht : bp.terminated = false)
    (hsig : 0 < bp.signalsSent → bp.worklist = [] ∧ bp.exited = true) :
    bp1.terminated = false ∧ (0 < bp1.signalsSent → bp1.worklist = [] ∧ bp1.exited = true) ∧
      (bp1.dispatched ++ bp1.worklist).Perm (bp.dispatched ++ bp.worklist ++ submitted evs) := by
  induction evs generalizing bp with
  | nil =>
    simp only [exec, Option.some.injEq] at hs
    subst hs
    exact ⟨ht, hsig, by simp [submitted]⟩
  | cons e es ih =>
    simp only [exec] at hs
    cases hstep : step bp e with
    | none => simp [hstep] at hs
    | some bp2 =>
      simp only [hstep, Option.some_bind] at hs
      obtain ⟨g1, g2, g3, g4⟩ :=
        graceful_step bp bp2 e hstep (he e (List.mem_cons_self e es)) hq ht hsig
      obtain ⟨k1, k2, k3⟩ := ih bp2 hs (fun e1 h1 => he e1 (List.mem_cons_of_mem e h1)) g1 g2 g3
      refine ⟨k1, k2, ?_⟩
      refine k3.trans ?_
      rw [submitted_cons e es, ← List.append_assoc]
      exact List.Perm.append_right _ g4

theorem exec_append (a b : List (Event α)) (bp : BatchProcessor α) :
    exec bp (a ++ b) = (exec bp a).bind fun bp1 => exec bp1 b := by
  induction a generalizing bp with
  | nil => simp [exec]
  | cons e es ih =>
    simp only [List.cons_append, exec]
    cases step bp e with
    | none => simp
    | some bp2 => simp [ih]

theorem submitted_append (a b : List (Event α)) :
    submitted (a ++ b) = submitted a ++ submitted b := by
  induction a with
  | nil => simp [submitted]
  | cons e es ih =>
    rw [List.cons_append, submitted_cons, submitted_cons e es, ih, List.append_assoc]

theorem submitted_of_no_batch (evs : List (Event α)) (h : ∀ e ∈ evs, e.isAddBatch = false) :
    submitted evs = [] := by
  induction evs with
  | nil => rfl
  | cons e es ih =>
    have he := h e (List.mem_cons_self e es)
    have hes := ih (fun e1 h1 => h e1 (List.mem_cons_of_mem e h1))
    cases e <;> simp_all [submitted, Event.isAddBatch]

theorem enqueueBatch_outstanding (bp : BatchProcessor α) (xs : List α) :
    bp.outstanding ≤ (enqueueBatch bp xs).outstanding := by
  induction xs generalizing bp with
  | nil => simp [enqueueBatch]
  | cons x xs ih =>
    simp only [enqueueBatch]
    split
    · have := ih (enqueueItem bp x)
      have h2 : (enqueueItem bp x).outstanding = bp.outstanding + 1 := rfl
      omega
    · simp

theorem busy_onTaskDone (bp : BatchProcessor α) (ht : bp.taskDone ≠ 0)
    (hinv : Inv bp) : Busy (onTaskDone bp) := by
  have hc := hinv.count
  unfold Busy onTaskDone
  cases hw : bp.worklist.getLast? with
  | some item =>
    simp only [hw, enqueueItem]
    intro _ _
    omega
  | none =>
    simp only [hw]
    split
    · intro _ hx
      cases hterm : bp.terminated <;> simp [hterm, sendFinished] at hx
    · rename_i hcond
      have hnil : bp.worklist = [] := by simpa using hw
      intro hl _
      simp only [workRemaining, hnil, Bool.and_eq_true, Bool.not_eq_true', Bool.or_eq_false_iff,
        decide_eq_false_iff_not, List.length_nil, gt_iff_lt, Nat.lt_irrefl, not_false_eq_true,
        true_and, not_lt, not_and] at hcond
      by_contra hne
      have h0 : bp.outstanding - 1 ≤ 0 := by
        have : ¬ 0 < bp.outstanding - 1 := hne
        omega
      exact absurd hl (by simpa using hcond h0)

theorem busy_onStopCommand (bp : BatchProcessor α) (t : Bool) (hC : 1 ≤ bp.maxTasks)
    (hc : 0 ≤ bp.outstanding) (hfull : bp.worklist ≠ [] → bp.outstanding = bp.maxTasks) :
    Busy (onStopCommand bp t) := by
  unfold Busy onStopCommand
  cases t
  · simp only [Bool.false_eq_true, if_false, Bool.false_and]
    split
    · intro _ hx
      simp [sendFinished] at hx
    · rename_i hcond
      intro _ _
      simp only [workRemaining, Bool.not_eq_true', Bool.or_eq_false_iff, decide_eq_false_iff_not,
        gt_iff_lt, not_lt, not_and] at hcond
      show 0 < bp.outstanding
      by_contra hne
      have hlen : ¬ bp.worklist.length ≤ 0 := fun hl => absurd (hcond hl) (by omega)
      have hne2 : bp.worklist ≠ [] := by
        intro hnil
        simp [hnil] at hlen
      have := hfull hne2
      omega
  · simp only [if_true, Bool.true_and]
    split
    · intro _ hx
      simp at hx
    · rename_i ho
      split
      · intro _ hx
        simp [sendFinished] at hx
      · intro _ _
        simp only [sendFinished, decide_eq_true_eq] at ho
        show 0 < bp.outstanding
        omega

theorem busy_step (bp bp1 : BatchProcessor α) (e : Event α) (hs : step bp e = some bp1)
    (hC : 1 ≤ bp.maxTasks) (hinv : Inv bp) (hb : Busy bp) : Busy bp1 := by
  cases e with
  | AddBatch batch =>
    simp only [step] at hs
    split at hs
    · simp at hs
    · simp only [Option.some.injEq] at hs
      subst hs
      obtain ⟨-, -, -, -, h5⟩ := enqueueBatch_other bp batch
      have h6 := enqueueBatch_exited bp batch
      have h7 := enqueueBatch_outstanding bp batch
      intro hl hx
      rw [h5] at hl
      rw [h6] at hx
      have := hb hl hx
      omega
  | Finish =>
    simp only [step, Option.some.injEq, Finish, send_stop] at hs
    subst hs
    split
    · exact hb
    · exact hb
  | Terminate =>
    simp only [step, Option.some.injEq, Terminate, send_stop] at hs
    subst hs
    split
    · exact hb
    · exact hb
  | wake =>
    simp only [step] at hs
    split at hs
    · simp only [Option.some.injEq] at hs
      subst hs
      exact hb
    · simp at hs
  | handlerDone =>
    simp only [step] at hs
    split at hs
    · simp only [Option.some.injEq] at hs
      subst hs
      exact hb
    · simp at hs
  | taskDone =>
    simp only [step] at hs
    split at hs
    · simp at hs
    · split at hs
      · simp at hs
      · rename_i ht
        simp only [Option.some.injEq] at hs
        subst hs
        exact busy_onTaskDone bp ht hinv
  | stopCommand =>
    simp only [step] at hs
    split at hs
    · simp at hs
    · rename_i hx
      split at hs
      · simp at hs
      · rename_i t rest hc
        simp only [Option.some.injEq] at hs
        subst hs
        have hc0 := hinv.count
        exact busy_onStopCommand { bp with stopCommand := rest } t hC
          (by show 0 ≤ bp.outstanding; omega) hinv.full

theorem busy_exec (evs : List (Event α)) (bp bp1 : BatchProcessor α)
    (hs : exec bp evs = some bp1) (hC : 1 ≤ bp.maxTasks) (hinv : Inv bp) (hb : Busy bp) :
    Busy bp1 := by
  induction evs generalizing bp with
  | nil =>
    simp only [exec, Option.some.injEq] at hs
    subst hs
    exact hb
  | cons e es ih =>
    simp only [exec] at hs
    cases hstep : step bp e with
    | none => simp [hstep] at hs
    | some bp2 =>
      simp only [hstep, Option.some_bind] at hs
      exact ih bp2 hs (by rw [step_maxTasks bp bp2 e hstep]; exact hC)
        (inv_step bp bp2 e hstep hinv) (busy_step bp bp2 e hstep hC hinv hb)

theorem onTaskDone_effort (bp : BatchProcessor α) (ht : bp.taskDone ≠ 0) (hinv : Inv bp) :
    effort (onTaskDone bp) < effort bp ∧ (onTaskDone bp).loopStopped = bp.loopStopped := by
  have hc := hinv.count
  unfold onTaskDone
  cases hw : bp.worklist.getLast? with
  | some item =>
    have hne : bp.worklist ≠ [] := by
      intro hnil; simp [hnil] at hw
    have hlen : 0 < bp.worklist.length := List.length_pos.2 hne
    simp only [hw, enqueueItem, effort, List.length_dropLast]
    refine ⟨?_, trivial⟩
    have e1 : (bp.outstanding - 1 + 1).toNat = bp.outstanding.toNat := by
      congr 1
      omega
    rw [e1]
    omega
  | none =>
    simp only [hw]
    have key : 2 * bp.worklist.length + 2 * (bp.outstanding - 1).toNat + bp.running <
        2 * bp.worklist.length + 2 * bp.outstanding.toNat + bp.running := by
      omega
    split
    · cases hterm : bp.terminated
      · exact ⟨key, rfl⟩
      · exact ⟨key, rfl⟩
    · exact ⟨key, rfl⟩

theorem drain (n : Nat) (bp : BatchProcessor α) (hC : 1 ≤ bp.maxTasks) (hinv : Inv bp)
    (hb : Busy bp) (hl : bp.loopStopped = true) (hm : effort bp ≤ n) :
    ∃ more bp1, (∀ e ∈ more, Event.isCompletion e = true) ∧ exec bp more = some bp1 ∧
      bp1.exited = true := by
  induction n generalizing bp with
  | zero =>
    cases hx : bp.exited
    · have ho := hb hl hx
      unfold effort at hm
      omega
    · exact ⟨[], bp, by simp, rfl, hx⟩
  | succ n ih =>
    cases hx : bp.exited
    · have ho := hb hl hx
      have hc := hinv.count
      by_cases hr : 0 < bp.running
      · have hstep : step bp .handlerDone =
            some { bp with running := bp.running - 1, taskDone := bp.taskDone + 1 } := by
          simp [step, hr]
        obtain ⟨more, bp1, g1, g2, g3⟩ := ih _
          (by rw [step_maxTasks bp _ _ hstep]; exact hC) (inv_step bp _ _ hstep hinv)
          (busy_step bp _ _ hstep hC hinv hb) hl
          (by unfold effort at hm ⊢; simp only; omega)
        refine ⟨.handlerDone :: more, bp1, ?_, ?_, g3⟩
        · intro e he
          rcases List.mem_cons.1 he with rfl | he1
          · rfl
          · exact g1 e he1
        · simp only [exec, hstep, Option.some_bind]
          exact g2
      · have ht : bp.taskDone ≠ 0 := by omega
        have hstep : step bp .taskDone = some (onTaskDone bp) := by
          simp [step, hx, ht]
        obtain ⟨e1, e2⟩ := onTaskDone_effort bp ht hinv
        obtain ⟨more, bp1, g1, g2, g3⟩ := ih _
          (by rw [step_maxTasks bp _ _ hstep]; exact hC) (inv_step bp _ _ hstep hinv)
          (busy_step bp _ _ hstep hC hinv hb) (by rw [e2]; exact hl) (by omega)
        refine ⟨.taskDone :: more, bp1, ?_, ?_, g3⟩
        · intro e he
          rcases List.mem_cons.1 he with rfl | he1
          · rfl
          · exact g1 e he1
        · simp only [exec, hstep, Option.some_bind]
          exact g2
    · exact ⟨[], bp, by simp, rfl, hx⟩

theorem onStopCommand_loopStopped (bp : BatchProcessor α) (t : Bool) :
    (onStopCommand bp t).loopStopped = true := by
  unfold onStopCommand
  cases t
  · simp only [Bool.false_eq_true, if_false, Bool.false_and]
    split <;> rfl
  · simp only [if_true, Bool.true_and]
    split
    · rfl
    · split <;> rfl

theorem request_stop (bp : BatchProcessor α) (hinv : Inv bp) (hl : bp.loopStopped = false) :
    ∃ pre bp1, (∀ e ∈ pre, e = Event.Finish ∨ e = Event.stopCommand) ∧
      exec bp pre = some bp1 ∧ bp1.loopStopped = true := by
  have hx : bp.exited = false := by
    cases hx : bp.exited
    · rfl
    · have := (hinv.idle hx).2.2
      rw [hl] at this
      exact absurd this (by decide)
  have hc := hinv.command
  rw [hl] at hc
  cases hst : bp.stopped
  · rw [hst] at hc
    have hnil : bp.stopCommand = [] := by
      apply List.eq_nil_of_length_eq_zero
      simp only [Bool.false_eq_true, if_false] at hc
      omega
    have hexec : exec bp [.Finish, .stopCommand] = some (onStopCommand
        { bp with stopped := true, stopCommand := [], waiting := bp.waiting + 1 } false) := by
      simp [exec, step, Finish, send_stop, hst, hnil, hx]
    refine ⟨[.Finish, .stopCommand], _, ?_, hexec, onStopCommand_loopStopped _ false⟩
    intro e he
    simp only [List.mem_cons, List.mem_singleton, List.not_mem_nil, or_false] at he
    exact he
  · rw [hst] at hc
    simp only [Bool.false_eq_true, if_false, if_true, Nat.add_zero] at hc
    match hq : bp.stopCommand, hc with
    | [t], _ =>
      have hexec : exec bp [.stopCommand] =
          some (onStopCommand { bp with stopCommand := [] } t) := by
        simp [exec, step, hq, hx]
      refine ⟨[.stopCommand], _, ?_, hexec, onStopCommand_loopStopped _ t⟩
      intro e he
      simp only [List.mem_singleton] at he
      exact Or.inr he

theorem finish_completes (bp : BatchProcessor α) (hC : 1 ≤ bp.maxTasks) (hinv : Inv bp)
    (hb : Busy bp) :
    ∃ more bp1, (∀ e ∈ more, Event.isAddBatch e = false ∧ Event.isTerminate e = false) ∧
      exec bp more = some bp1 ∧ bp1.exited = true ∧ 0 < bp1.signalsSent := by
  have hsig : ∀ bp1 : BatchProcessor α, Inv bp1 → bp1.exited = true → 0 < bp1.signalsSent := by
    intro bp1 hinv1 hx1
    have h1 := hinv1.signal
    rw [(hinv1.idle hx1).2.2, hx1] at h1
    simp at h1
    omega
  cases hl : bp.loopStopped
  · obtain ⟨pre, bp1, p1, p2, p3⟩ := request_stop bp hinv hl
    have hinv1 := inv_exec pre bp bp1 p2 hinv
    have hb1 := busy_exec pre bp bp1 p2 hC hinv hb
    have hC1 : 1 ≤ bp1.maxTasks := by rw [exec_maxTasks pre bp bp1 p2]; exact hC
    obtain ⟨more, bp2, g1, g2, g3⟩ := drain (effort bp1) bp1 hC1 hinv1 hb1 p3 (Nat.le_refl _)
    refine ⟨pre ++ more, bp2, ?_, ?_, g3, hsig bp2 (inv_exec more bp1 bp2 g2 hinv1) g3⟩
    · intro e he
      rcases List.mem_append.1 he with h1 | h1
      · rcases p1 e h1 with rfl | rfl <;> exact ⟨rfl, rfl⟩
      · have := g1 e h1
        cases e <;> simp_all [Event.isCompletion, Event.isAddBatch, Event.isTerminate]
    · rw [exec_append, p2]
      exact g2
  · obtain ⟨more, bp2, g1, g2, g3⟩ := drain (effort bp) bp hC hinv hb hl (Nat.le_refl _)
    refine ⟨more, bp2, ?_, g2, g3, hsig bp2 (inv_exec more bp bp2 g2 hinv) g3⟩
    intro e he
    have := g1 e he
    cases e <;> simp_all [Event.isCompletion, Event.isAddBatch, Event.isTerminate]

theorem New_fields (C : Int) (bp0 : BatchProcessor α) (h0 : NewBatchProcessor C = some bp0) :
    bp0.stopCommand = [] ∧ bp0.terminated = false ∧ bp0.signalsSent = 0 ∧
      bp0.dispatched = [] ∧ bp0.worklist = [] ∧ bp0.loopStopped = false ∧
      bp0.stopped = false := by
  unfold NewBatchProcessor at h0
  split at h0
  · simp at h0
  · simp only [Option.some.injEq] at h0
    subst h0
    simp

theorem graceful_signal (C : Int) (evs : List (Event α)) (bp0 bp : BatchProcessor α)
    (h0 : NewBatchProcessor C = some bp0) (hnt : ∀ e ∈ evs, e.isTerminate = false)
    (h : exec bp0 evs = some bp) (hsent : 0 < bp.signalsSent) :
    bp.dispatched.Perm (submitted evs) ∧ bp.worklist = [] ∧ bp.outstanding = 0 := by
  have hinv := inv_exec evs bp0 bp h (inv_New C bp0 h0)
  obtain ⟨n1, n2, n3, n4, n5, -, -⟩ := New_fields C bp0 h0
  obtain ⟨-, k2, k3⟩ := graceful_exec evs bp0 bp h hnt (by simp [n1]) n2 (by simp [n3])
  obtain ⟨hw, hx⟩ := k2 hsent
  refine ⟨?_, hw, (hinv.idle hx).1⟩
  simpa [hw, n4, n5] using k3

/-- C2: for every ceiling `C ≥ 1` and every run in which `Terminate()` is never
called, once the coordinator has sent the finished signal the items handed to
the callback are, as a multiset, exactly the items of all accepted batches: none
is dropped and none is run twice. And the signal does come: from every such
state, calling `Finish()` (if not yet called) and letting the handlers complete
leads to a state in which the signal has been sent. -/
theorem finish_dispatches_each_item_once (C : Int) (hC : 1 ≤ C) (evs : List (Event α))
    (bp0 bp : BatchProcessor α) (h0 : NewBatchProcessor C = some bp0)
    (hnt : ∀ e ∈ evs, e.isTerminate = false) (h : exec bp0 evs = some bp) :
    (0 < bp.signalsSent →
        bp.dispatched.Perm (submitted evs) ∧ bp.worklist = [] ∧ bp.outstanding = 0) ∧
      ∃ more bp1, (∀ e ∈ more, Event.isAddBatch e = false ∧ Event.isTerminate e = false) ∧
        exec bp more = some bp1 ∧ 0 < bp1.signalsSent ∧
        bp1.dispatched.Perm (submitted evs) := by
  refine ⟨graceful_signal C evs bp0 bp h0 hnt h, ?_⟩
  have hinv0 := inv_New C bp0 h0
  have hm0 : 1 ≤ bp0.maxTasks := by rw [New_maxTasks C bp0 h0]; exact hC
  have hb0 : Busy bp0 := by
    intro hl
    rw [(New_fields C bp0 h0).2.2.2.2.2.1] at hl
    exact absurd hl (by decide)
  have hinv := inv_exec evs bp0 bp h hinv0
  have hb := busy_exec evs bp0 bp h hm0 hinv0 hb0
  have hm : 1 ≤ bp.maxTasks := by rw [exec_maxTasks evs bp0 bp h]; exact hm0
  obtain ⟨more, bp1, g1, g2, -, g4⟩ := finish_completes bp hm hinv hb
  refine ⟨more, bp1, g1, g2, g4, ?_⟩
  have hall : exec bp0 (evs ++ more) = some bp1 := by
    rw [exec_append, h]
    exact g2
  have hnt2 : ∀ e ∈ evs ++ more, e.isTerminate = false := by
    intro e he
    rcases List.mem_append.1 he with h1 | h1
    · exact hnt e h1
    · exact (g1 e h1).2
  have := (graceful_signal C (evs ++ more) bp0 bp1 h0 hnt2 hall g4).1
  rwa [submitted_append, submitted_of_no_batch more (fun e he => (g1 e he).1),
    List.append_nil] at this

/-- Witness for C2: ceiling 2, one batch of three items, `Finish()`, and every
handler running to completion. -/
theorem finish_dispatches_each_item_once_witness :
    ∃ bp0 bp : BatchProcessor Nat, NewBatchProcessor 2 = some bp0 ∧
      exec bp0 [.AddBatch [7, 8, 9], .Finish, .stopCommand, .handlerDone, .taskDone,
        .handlerDone, .taskDone, .handlerDone, .taskDone, .wake] = some bp ∧
      bp.signalsSent = 1 ∧ bp.dispatched = [7, 8, 9] ∧
      ((0 < bp.signalsSent →
          bp.dispatched.Perm (submitted ([.AddBatch [7, 8, 9], .Finish, .stopCommand,
            .handlerDone, .taskDone, .handlerDone, .taskDone, .handlerDone, .taskDone,
            .wake] : List (Event Nat))) ∧ bp.worklist = [] ∧ bp.outstanding = 0) ∧
        ∃ more bp1, (∀ e ∈ more, Event.isAddBatch e = false ∧ Event.isTerminate e = false) ∧
          exec bp more = some bp1 ∧ 0 < bp1.signalsSent ∧
          bp1.dispatched.Perm (submitted ([.AddBatch [7, 8, 9], .Finish, .stopCommand,
            .handlerDone, .taskDone, .handlerDone, .taskDone, .handlerDone, .taskDone,
            .wake] : List (Event Nat)))) :=
  ⟨_, _, rfl, rfl, rfl, rfl,
    finish_dispatches_each_item_once 2 (by decide)
      [.AddBatch [7, 8, 9], .Finish, .stopCommand, .handlerDone, .taskDone,
        .handlerDone, .taskDone, .handlerDone, .taskDone, .wake] _ _ rfl (by decide) rfl⟩

theorem onStopCommand_empty (bp : BatchProcessor α) (t : Bool) (hw : bp.worklist = []) :
    (onStopCommand bp t).worklist = [] ∧ (onStopCommand bp t).dispatched = bp.dispatched := by
  unfold onStopCommand
  cases t
  · simp only [Bool.false_eq_true, if_false, Bool.false_and]
    split
    · exact ⟨hw, rfl⟩
    · exact ⟨hw, rfl⟩
  · simp only [if_true, Bool.true_and]
    split
    · exact ⟨rfl, rfl⟩
    · split
      · exact ⟨rfl, rfl⟩
      · exact ⟨rfl, rfl⟩

theorem onStopCommand_true (bp : BatchProcessor α) :
    (onStopCommand bp true).worklist = [] ∧ (onStopCommand bp true).dispatched = bp.dispatched := by
  unfold onStopCommand
  simp only [if_true, Bool.true_and]
  split
  · exact ⟨rfl, rfl⟩
  · split
    · exact ⟨rfl, rfl⟩
    · exact ⟨rfl, rfl⟩

theorem onTaskDone_empty (bp : BatchProcessor α) (hw : bp.worklist = []) :
    (onTaskDone bp).worklist = [] ∧ (onTaskDone bp).dispatched = bp.dispatched := by
  unfold onTaskDone
  have hl : bp.worklist.getLast? = none := by simp [hw]
  simp only [hl]
  split
  · cases bp.terminated
    · exact ⟨hw, rfl⟩
    · exact ⟨hw, rfl⟩
  · exact ⟨hw, rfl⟩

theorem send_stop_lists (bp : BatchProcessor α) (t : Bool) :
    (send_stop bp t).worklist = bp.worklist ∧ (send_stop bp t).dispatched = bp.dispatched := by
  unfold send_stop
  split
  · exact ⟨rfl, rfl⟩
  · exact ⟨rfl, rfl⟩

theorem empty_step (bp bp1 : BatchProcessor α) (e : Event α) (hs : step bp e = some bp1)
    (he : e.isAddBatch = false) (hw : bp.worklist = []) :
    bp1.worklist = [] ∧ bp1.dispatched = bp.dispatched := by
  cases e with
  | AddBatch batch => simp [Event.isAddBatch] at he
  | Finish =>
    simp only [step, Option.some.injEq] at hs
    subst hs
    have := send_stop_lists bp false
    exact ⟨by rw [Finish, this.1, hw], this.2⟩
  | Terminate =>
    simp only [step, Option.some.injEq] at hs
    subst hs
    have := send_stop_lists bp true
    exact ⟨by rw [Terminate, this.1, hw], this.2⟩
  | wake =>
    simp only [step] at hs
    split at hs
    · simp only [Option.some.injEq] at hs
      subst hs
      exact ⟨hw, rfl⟩
    · simp at hs
  | handlerDone =>
    simp only [step] at hs
    split at hs
    · simp only [Option.some.injEq] at hs
      subst hs
      exact ⟨hw, rfl⟩
    · simp at hs
  | taskDone =>
    simp only [step] at hs
    split at hs
    · simp at hs
    · split at hs
      · simp at hs
      · simp only [Option.some.injEq] at hs
        subst hs
        exact onTaskDone_empty bp hw
  | stopCommand =>
    simp only [step] at hs
    split at hs
    · simp at hs
    · split at hs
      · simp at hs
      · rename_i t rest hc
        simp only [Option.some.injEq] at hs
        subst hs
        exact onStopCommand_empty _ t hw

theorem empty_exec (evs : List (Event α)) (bp bp1 : BatchProcessor α)
    (hs : exec bp evs = some bp1) (he : ∀ e ∈ evs, e.isAddBatch = false)
    (hw : bp.worklist = []) : bp1.worklist = [] ∧ bp1.dispatched = bp.dispatched := by
  induction evs generalizing bp with
  | nil =>
    simp only [exec, Option.some.injEq] at hs
    subst hs
    exact ⟨hw, rfl⟩
  | cons e es ih =>
    simp only [exec] at hs
    cases hstep : step bp e with
    | none => simp [hstep] at hs
    | some bp2 =>
      simp only [hstep, Option.some_bind] at hs
      obtain ⟨g1, g2⟩ := empty_step bp bp2 e hstep (he e (List.mem_cons_self e es)) hw
      obtain ⟨k1, k2⟩ := ih bp2 hs (fun e1 h1 => he e1 (List.mem_cons_of_mem e h1)) g1
      exact ⟨k1, by rw [k2, g2]⟩

theorem enqueueBatch_later (bp : BatchProcessor α) (xs : List α) :
    ∃ later, (enqueueBatch bp xs).dispatched = bp.dispatched ++ later ∧
      (later ++ (enqueueBatch bp xs).worklist).Perm (bp.worklist ++ xs) := by
  induction xs generalizing bp with
  | nil => exact ⟨[], by simp [enqueueBatch]⟩
  | cons x xs ih =>
    simp only [enqueueBatch]
    split
    · obtain ⟨later, g1, g2⟩ := ih (enqueueItem bp x)
      refine ⟨x :: later, ?_, ?_⟩
      · rw [g1]; simp [enqueueItem]
      · have g3 : (later ++ (enqueueBatch (enqueueItem bp x) xs).worklist).Perm
            (bp.worklist ++ xs) := g2
        exact (List.Perm.cons x g3).trans List.perm_middle.symm
    · exact ⟨[], by simp⟩

theorem onStopCommand_lists (bp : BatchProcessor α) (t : Bool) :
    (onStopCommand bp t).dispatched = bp.dispatched ∧
      (onStopCommand bp t).worklist = if t then [] else bp.worklist := by
  unfold onStopCommand
  cases t
  · simp only [Bool.false_eq_true, if_false, Bool.false_and]
    split
    · exact ⟨rfl, rfl⟩
    · exact ⟨rfl, rfl⟩
  · simp only [if_true, Bool.true_and]
    split
    · exact ⟨rfl, rfl⟩
    · split
      · exact ⟨rfl, rfl⟩
      · exact ⟨rfl, rfl⟩

theorem later_step (bp bp1 : BatchProcessor α) (e : Event α) (hs : step bp e = some bp1) :
    ∃ later, bp1.dispatched = bp.dispatched ++ later ∧
      (later ++ bp1.worklist).Subperm (bp.worklist ++ submitted [e]) := by
  cases e with
  | AddBatch batch =>
    simp only [step] at hs
    split at hs
    · simp at hs
    · simp only [Option.some.injEq] at hs
      subst hs
      obtain ⟨later, g1, g2⟩ := enqueueBatch_later bp batch
      exact ⟨later, g1, by simpa [submitted] using g2.subperm⟩
  | Finish =>
    simp only [step, Option.some.injEq] at hs
    subst hs
    obtain ⟨g1, g2⟩ := send_stop_lists bp false
    exact ⟨[], by simp [Finish, g2], by simp [Finish, g1, submitted, List.Subperm.refl]⟩
  | Terminate =>
    simp only [step, Option.some.injEq] at hs
    subst hs
    obtain ⟨g1, g2⟩ := send_stop_lists bp true
    exact ⟨[], by simp [Terminate, g2], by simp [Terminate, g1, submitted, List.Subperm.refl]⟩
  | wake =>
    simp only [step] at hs
    split at hs
    · simp only [Option.some.injEq] at hs
      subst hs
      exact ⟨[], by simp, by simp [submitted, List.Subperm.refl]⟩
    · simp at hs
  | handlerDone =>
    simp only [step] at hs
    split at hs
    · simp only [Option.some.injEq] at hs
      subst hs
      exact ⟨[], by simp, by simp [submitted, List.Subperm.refl]⟩
    · simp at hs
  | taskDone =>
    simp only [step] at hs
    split at hs
    · simp at hs
    · split at hs
      · simp at hs
      · simp only [Option.some.injEq] at hs
        subst hs
        cases hw : bp.worklist.getLast? with
        | some item =>
          have hsplit := List.dropLast_append_getLast? item (by simpa using hw)
          unfold onTaskDone
          simp only [hw, enqueueItem]
          refine ⟨[item], rfl, ?_⟩
          simp only [submitted, List.append_nil]
          conv_rhs => rw [← hsplit]
          exact (@List.perm_append_comm _ [item] bp.worklist.dropLast).subperm
        | none =>
          have hnil : bp.worklist = [] := by simpa using hw
          obtain ⟨g1, g2⟩ := onTaskDone_empty bp hnil
          exact ⟨[], by simp [g2], by simp [g1, hnil, submitted, List.Subperm.refl]⟩
  | stopCommand =>
    simp only [step] at hs
    split at hs
    · simp at hs
    · split at hs
      · simp at hs
      · rename_i t rest hc
        simp only [Option.some.injEq] at hs
        subst hs
        obtain ⟨g1, g2⟩ := onStopCommand_lists { bp with stopCommand := rest } t
        refine ⟨[], by simp [g1], ?_⟩
        rw [g2]
        cases t
        · simp [submitted, List.Subperm.refl]
        · simp [submitted]

theorem later_exec (evs : List (Event α)) (bp bp1 : BatchProcessor α)
    (hs : exec bp evs = some bp1) :
    ∃ later, bp1.dispatched = bp.dispatched ++ later ∧
      (later ++ bp1.worklist).Subperm (bp.worklist ++ submitted evs) := by
  induction evs generalizing bp with
  | nil =>
    simp only [exec, Option.some.injEq] at hs
    subst hs
    exact ⟨[], by simp, by simp [submitted, List.Subperm.refl]⟩
  | cons e es ih =>
    simp only [exec] at hs
    cases hstep : step bp e with
    | none => simp [hstep] at hs
    | some bp2 =>
      simp only [hstep, Option.some_bind] at hs
      obtain ⟨l1, g1, g2⟩ := later_step bp bp2 e hstep
      obtain ⟨l2, k1, k2⟩ := ih bp2 hs
      refine ⟨l1 ++ l2, by rw [k1, g1, List.append_assoc], ?_⟩
      rw [submitted_cons e es, List.append_assoc l1 l2, ← List.append_assoc bp.worklist]
      refine ((List.subperm_append_left l1).2 k2).trans ?_
      rw [← List.append_assoc]
      exact (List.subperm_append_right (submitted es)).2 g2

/-- What taking a `Terminate` command does achieve: the worklist is emptied and
nothing is started, so the items pending at that moment are never run (whatever
is handed to the callback later was accepted later); and in the runs in which
no further batch arrives the worklist stays empty and no item at all is handed
to the callback. -/
theorem Terminate_discards_pending (bp1 bp2 bp3 : BatchProcessor α) (rest : List Bool)
    (post : List (Event α)) (hq : bp1.stopCommand = true :: rest)
    (hstep : step bp1 .stopCommand = some bp2) (h : exec bp2 post = some bp3) :
    bp2.worklist = [] ∧ bp2.dispatched = bp1.dispatched ∧
      (∃ later, bp3.dispatched = bp1.dispatched ++ later ∧
        (later ++ bp3.worklist).Subperm (submitted post)) ∧
      ((∀ e ∈ post, e.isAddBatch = false) →
        bp3.worklist = [] ∧ bp3.dispatched = bp1.dispatched) := by
  simp only [step, hq] at hstep
  split at hstep
  · simp at hstep
  · simp only [Option.some.injEq] at hstep
    subst hstep
    obtain ⟨g1, g2⟩ := onStopCommand_true { bp1 with stopCommand := rest }
    refine ⟨g1, g2, ?_, ?_⟩
    · obtain ⟨later, k1, k2⟩ := later_exec post _ bp3 h
      rw [g1, List.nil_append] at k2
      exact ⟨later, by rw [k1, g2], k2⟩
    · intro hpost
      obtain ⟨k1, k2⟩ := empty_exec post _ bp3 h hpost g1
      exact ⟨k1, by rw [k2, g2]⟩

/-- The run of 100 items with ceiling 5 and `Terminate()` at once: items 0 to 4
run, the coordinator leaves after their five completions, and none of the other
95 items is ever handed to the callback. -/
theorem Terminate_discards_pending_witness :
    ∃ bp0 bp1 bp2 bp3 : BatchProcessor Nat, NewBatchProcessor 5 = some bp0 ∧
      exec bp0 [.AddBatch (List.range 100), .Terminate] = some bp1 ∧
      bp1.worklist.length = 95 ∧
      step bp1 .stopCommand = some bp2 ∧
      exec bp2 [.wake, .handlerDone, .taskDone, .handlerDone, .taskDone, .handlerDone,
        .taskDone, .handlerDone, .taskDone, .handlerDone, .taskDone] = some bp3 ∧
      bp3.exited = true ∧ bp3.dispatched = [0, 1, 2, 3, 4] ∧
      (bp2.worklist = [] ∧ bp2.dispatched = bp1.dispatched ∧
        (∃ later, bp3.dispatched = bp1.dispatched ++ later ∧
          (later ++ bp3.worklist).Subperm (submitted
            [.wake, .handlerDone, .taskDone, .handlerDone, .taskDone, .handlerDone,
              .taskDone, .handlerDone, .taskDone, .handlerDone, .taskDone])) ∧
        ((∀ e ∈ ([.wake, .handlerDone, .taskDone, .handlerDone, .taskDone, .handlerDone,
              .taskDone, .handlerDone, .taskDone, .handlerDone, .taskDone] : List (Event Nat)),
            e.isAddBatch = false) →
          bp3.worklist = [] ∧ bp3.dispatched = bp1.dispatched)) :=
  ⟨_, _, _, _, rfl, rfl, rfl, rfl, rfl, rfl, rfl,
    Terminate_discards_pending _ _ _ []
      [.wake, .handlerDone, .taskDone, .handlerDone, .taskDone, .handlerDone,
        .taskDone, .handlerDone, .taskDone, .handlerDone, .taskDone] rfl rfl rfl⟩

/-- It is not so that no completion taken after a `Terminate` command starts an
item: with ceiling 1, a batch accepted after the command (one handler is still
running, so the coordinator is still in its loop) is queued, and the next
completion pops an item off the worklist and runs it. -/
theorem promotion_after_Terminate :
    ¬ ∀ (C : Int) (pre post : List (Event Nat)) (bp0 bp1 bp2 bp3 bp4 : BatchProcessor Nat),
      1 ≤ C → NewBatchProcessor C = some bp0 → exec bp0 pre = some bp1 →
      bp1.stopCommand.head? = some true → step bp1 .stopCommand = some bp2 →
      exec bp2 post = some bp3 → step bp3 .taskDone = some bp4 →
      bp4.dispatched = bp3.dispatched := by
  intro hall
  have h := hall 1 [.AddBatch [0, 1], .Terminate] [.AddBatch [2], .handlerDone] _ _ _ _ _
    (by decide) rfl rfl rfl rfl rfl rfl
  revert h
  decide

/-- C3, the code at the failing input. Ceiling 1: `AddBatch [0, 1]` starts item 0
and queues item 1; the coordinator takes the `Terminate` command, empties the
worklist and stays in its loop because handler 0 is running; `AddBatch [2]` is
then accepted and queued; when handler 0 returns, the coordinator pops item 2
off the worklist and hands it to the callback, after `Terminate()`. Ceiling 2:
`AddBatch [0]`, the `Terminate` command taken, then `AddBatch [1]` with a slot
free: item 1 is handed to the callback at once. -/
theorem Terminate_then_AddBatch_runs_items :
    (∃ bp0 bp1 bp2 bp3 : BatchProcessor Nat, NewBatchProcessor 1 = some bp0 ∧
      exec bp0 [.AddBatch [0, 1], .Terminate, .stopCommand] = some bp1 ∧
      bp1.terminated = true ∧ bp1.exited = false ∧ bp1.worklist = [] ∧ bp1.dispatched = [0] ∧
      exec bp1 [.AddBatch [2], .handlerDone] = some bp2 ∧
      bp2.worklist = [2] ∧ bp2.dispatched = [0] ∧
      step bp2 .taskDone = some bp3 ∧
      bp3.worklist = [] ∧ bp3.dispatched = [0, 2] ∧ bp3.running = 1) ∧
    (∃ bp0 bp1 bp2 : BatchProcessor Nat, NewBatchProcessor 2 = some bp0 ∧
      exec bp0 [.AddBatch [0], .Terminate, .stopCommand] = some bp1 ∧
      bp1.terminated = true ∧ bp1.exited = false ∧ bp1.dispatched = [0] ∧
      step bp1 (.AddBatch [1]) = some bp2 ∧
      bp2.dispatched = [0, 1] ∧ bp2.running = 2) :=
  ⟨⟨_, _, _, _, rfl, rfl, rfl, rfl, rfl, rfl, rfl, rfl, rfl, rfl, rfl, rfl, rfl⟩,
    ⟨_, _, _, rfl, rfl, rfl, rfl, rfl, rfl, rfl, rfl⟩⟩

/-- C4: in every run, a step of the coordinator that sends the finished signal
while the command it serves is graceful (`terminated` is false) ends in a state
with an empty worklist and `outstanding = 0`; and a step in which the
coordinator loop returns, under either command, ends with `outstanding = 0`. -/
theorem signal_and_exit_only_when_idle (C : Int) (_hC : 1 ≤ C) (evs : List (Event α))
    (e : Event α) (bp0 bp bp1 : BatchProcessor α) (h0 : NewBatchProcessor C = some bp0)
    (h : exec bp0 evs = some bp) (hs : step bp e = some bp1) :
    (bp.signalsSent < bp1.signalsSent → bp1.terminated = false →
        bp1.worklist = [] ∧ bp1.outstanding = 0) ∧
      (bp.exited = false → bp1.exited = true → bp1.outstanding = 0) := by
  have hinv := inv_step bp bp1 e hs (inv_exec evs bp0 bp h (inv_New C bp0 h0))
  constructor
  · intro hlt ht
    have hsig := hinv.signal
    rw [ht] at hsig
    cases hx : bp1.exited
    · rw [hx] at hsig
      simp at hsig
      omega
    · exact ⟨(hinv.idle hx).2.1, (hinv.idle hx).1⟩
  · intro _ hx
    exact (hinv.idle hx).1

/-- Witness for C4: ceiling 1, one item, `Finish()`; the step that takes the last
completion sends the signal and leaves the loop. -/
theorem signal_and_exit_only_when_idle_witness :
    ∃ bp0 bp bp1 : BatchProcessor Nat, NewBatchProcessor 1 = some bp0 ∧
      exec bp0 [.AddBatch [7], .Finish, .stopCommand, .handlerDone] = some bp ∧
      step bp .taskDone = some bp1 ∧
      bp.signalsSent = 0 ∧ bp1.signalsSent = 1 ∧ bp.exited = false ∧ bp1.exited = true ∧
      ((bp.signalsSent < bp1.signalsSent → bp1.terminated = false →
          bp1.worklist = [] ∧ bp1.outstanding = 0) ∧
        (bp.exited = false → bp1.exited = true → bp1.outstanding = 0)) :=
  ⟨_, _, _, rfl, rfl, rfl, rfl, rfl, rfl, rfl,
    signal_and_exit_only_when_idle 1 (by decide) [.AddBatch [7], .Finish, .stopCommand, .handlerDone]
      .taskDone _ _ _ rfl rfl rfl⟩

theorem enqueueBatch_take (bp : BatchProcessor α) (xs : List α) (free : Nat)
    (hfree : bp.outstanding + (free : Int) = bp.maxTasks) (hw : free ≠ 0 → bp.worklist = []) :
    (enqueueBatch bp xs).dispatched = bp.dispatched ++ xs.take free ∧
      (enqueueBatch bp xs).worklist = bp.worklist ++ xs.drop free ∧
      (enqueueBatch bp xs).stopCommand = bp.stopCommand := by
  induction xs generalizing bp free with
  | nil => simp [enqueueBatch]
  | cons x xs ih =>
    simp only [enqueueBatch]
    split
    · rename_i hlt
      obtain ⟨k, rfl⟩ : ∃ k, free = k + 1 := ⟨free - 1, by omega⟩
      have hnil : bp.worklist = [] := hw (by omega)
      obtain ⟨g1, g2, g3⟩ := ih (enqueueItem bp x) k
        (by simp only [enqueueItem]; push_cast at hfree; omega)
        (by intro _; simpa [enqueueItem] using hnil)
      refine ⟨?_, ?_, ?_⟩
      · rw [g1]; simp [enqueueItem]
      · rw [g2]; simp [enqueueItem]
      · rw [g3]; rfl
    · rename_i hge
      have hz : free = 0 := by omega
      subst hz
      simp

theorem lifo_step (bp bp1 : BatchProcessor α) (e : Event α) (hs : step bp e = some bp1)
    (he : e.isAddBatch = false ∧ e.isTerminate = false) (hq : true ∉ bp.stopCommand) :
    true ∉ bp1.stopCommand ∧
      bp1.dispatched = bp.dispatched ++ bp.worklist.reverse.take (if e.isTaskDone then 1 else 0) ∧
      bp1.worklist = (bp.worklist.reverse.drop (if e.isTaskDone then 1 else 0)).reverse := by
  cases e with
  | AddBatch batch => simp [Event.isAddBatch] at he
  | Terminate => simp [Event.isTerminate] at he
  | Finish =>
    simp only [step, Option.some.injEq, Finish, send_stop] at hs
    subst hs
    split
    · exact ⟨hq, by simp [Event.isTaskDone], by simp [Event.isTaskDone]⟩
    · exact ⟨by simpa using hq, by simp [Event.isTaskDone], by simp [Event.isTaskDone]⟩
  | wake =>
    simp only [step] at hs
    split at hs
    · simp only [Option.some.injEq] at hs
      subst hs
      exact ⟨hq, by simp [Event.isTaskDone], by simp [Event.isTaskDone]⟩
    · simp at hs
  | handlerDone =>
    simp only [step] at hs
    split at hs
    · simp only [Option.some.injEq] at hs
      subst hs
      exact ⟨hq, by simp [Event.isTaskDone], by simp [Event.isTaskDone]⟩
    · simp at hs
  | taskDone =>
    simp only [step] at hs
    split at hs
    · simp at hs
    · split at hs
      · simp at hs
      · simp only [Option.some.injEq] at hs
        subst hs
        cases hw : bp.worklist.getLast? with
        | some item =>
          have hsplit := List.dropLast_append_getLast? item (by simpa using hw)
          have hrev : bp.worklist.reverse = item :: bp.worklist.dropLast.reverse := by
            conv_lhs => rw [← hsplit]
            simp
          unfold onTaskDone
          simp only [hw, enqueueItem, Event.isTaskDone, if_true]
          refine ⟨hq, ?_, ?_⟩
          · rw [hrev]; simp
          · rw [hrev]; simp
        | none =>
          have hnil : bp.worklist = [] := by simpa using hw
          obtain ⟨g1, g2⟩ := onTaskDone_empty bp hnil
          refine ⟨?_, by rw [g2, hnil]; simp, by rw [g1, hnil]; simp⟩
          unfold onTaskDone
          simp only [hw]
          split
          · cases bp.terminated <;> exact hq
          · exact hq
  | stopCommand =>
    simp only [step] at hs
    split at hs
    · simp at hs
    · split at hs
      · simp at hs
      · rename_i t rest hc
        simp only [Option.some.injEq] at hs
        subst hs
        have htf : t = false := by
          cases t
          · rfl
          · rw [hc] at hq; simp at hq
        have hrest : true ∉ rest := by
          rw [hc] at hq
          simp at hq
          exact hq.2
        subst htf
        unfold onStopCommand
        simp only [Bool.false_eq_true, if_false, Bool.false_and, Event.isTaskDone]
        split
        · exact ⟨hrest, by simp [sendFinished], by simp [sendFinished]⟩
        · exact ⟨hrest, by simp, by simp⟩

theorem lifo_exec (evs : List (Event α)) (bp bp1 : BatchProcessor α)
    (hs : exec bp evs = some bp1)
    (he : ∀ e ∈ evs, e.isAddBatch = false ∧ e.isTerminate = false)
    (hq : true ∉ bp.stopCommand) :
    bp1.dispatched = bp.dispatched ++ bp.worklist.reverse.take (evs.countP Event.isTaskDone) ∧
      bp1.worklist = (bp.worklist.reverse.drop (evs.countP Event.isTaskDone)).reverse := by
  induction evs generalizing bp with
  | nil =>
    simp only [exec, Option.some.injEq] at hs
    subst hs
    simp
  | cons e es ih =>
    simp only [exec] at hs
    cases hstep : step bp e with
    | none => simp [hstep] at hs
    | some bp2 =>
      simp only [hstep, Option.some_bind] at hs
      obtain ⟨g1, g2, g3⟩ := lifo_step bp bp2 e hstep (he e (List.mem_cons_self e es)) hq
      obtain ⟨k1, k2⟩ := ih bp2 hs (fun e1 h1 => he e1 (List.mem_cons_of_mem e h1)) g1
      rw [g2, g3, List.reverse_reverse] at k1
      rw [g3, List.reverse_reverse] at k2
      rw [List.countP_cons]
      constructor
      · rw [k1, List.append_assoc, Nat.add_comm, List.take_add]
      · rw [k2, List.drop_drop]
        congr 2
        omega

/-- C8: a scheduler with ceiling `C ≥ 1` that is idle takes one batch `xs` and
then no other batch and no `Terminate`. Whatever else happens afterwards, the
items handed to the callback are the first `min (len xs) C` items in index
order, started at once, followed by overflow items in last-in first-out order
(the last item of the batch first), one for each completion notification the
coordinator has taken; the worklist holds the overflow items not yet started. -/
theorem single_batch_dispatch_order (C : Int) (hC : 1 ≤ C) (bp bp1 : BatchProcessor α)
    (xs : List α) (evs : List (Event α)) (hm : bp.maxTasks = C) (ho : bp.outstanding = 0)
    (hw : bp.worklist = []) (hq : true ∉ bp.stopCommand)
    (hev : ∀ e ∈ evs, e.isAddBatch = false ∧ e.isTerminate = false)
    (h : exec bp (.AddBatch xs :: evs) = some bp1) :
    step bp (.AddBatch xs) = some (enqueueBatch bp xs) ∧
      (enqueueBatch bp xs).dispatched = bp.dispatched ++ xs.take C.toNat ∧
      (enqueueBatch bp xs).worklist = xs.drop C.toNat ∧
      bp1.dispatched = bp.dispatched ++ xs.take C.toNat ++
        (xs.drop C.toNat).reverse.take (evs.countP Event.isTaskDone) ∧
      bp1.worklist = (xs.drop C.toNat).take (xs.length - C.toNat - evs.countP Event.isTaskDone) := by
  obtain ⟨g1, g2, g3⟩ := enqueueBatch_take bp xs C.toNat (by rw [ho, hm]; omega)
    (fun _ => hw)
  rw [hw, List.nil_append] at g2
  simp only [exec, step] at h
  split at h
  · simp at h
  · rename_i hx
    simp only [Option.some_bind] at h
    obtain ⟨k1, k2⟩ := lifo_exec evs _ bp1 h hev (by rw [g3]; exact hq)
    refine ⟨by simp [step, hx], g1, g2, ?_, ?_⟩
    · rw [k1, g1, g2]
    · rw [k2, g2, List.reverse_drop, List.reverse_reverse, List.length_reverse, List.length_drop]

/-- Witness for C8: three items, ceiling 2. Items 0 and 1 start at once and item 2
waits; it starts when the coordinator takes the first completion. -/
theorem single_batch_dispatch_order_witness :
    ∃ bp0 bp1 : BatchProcessor Nat, NewBatchProcessor 2 = some bp0 ∧
      exec bp0 [.AddBatch [0, 1, 2], .handlerDone, .taskDone] = some bp1 ∧
      (step bp0 (.AddBatch [0, 1, 2]) = some (enqueueBatch bp0 [0, 1, 2]) ∧
        (enqueueBatch bp0 [0, 1, 2]).dispatched = [0, 1] ∧
        (enqueueBatch bp0 [0, 1, 2]).worklist = [2] ∧
        bp1.dispatched = [0, 1, 2] ∧
        bp1.worklist = []) :=
  ⟨_, _, rfl, rfl,
    single_batch_dispatch_order 2 (by decide) _ _ [0, 1, 2] [.handlerDone, .taskDone] rfl rfl rfl
      (by decide) (by decide) rfl⟩

theorem onTaskDone_stopped (bp : BatchProcessor α) : (onTaskDone bp).stopped = bp.stopped := by
  unfold onTaskDone
  cases hw : bp.worklist.getLast? with
  | some item => simp only [hw]; rfl
  | none =>
    simp only [hw]
    split
    · cases bp.terminated <;> rfl
    · rfl

theorem onStopCommand_stopped (bp : BatchProcessor α) (t : Bool) :
    (onStopCommand bp t).stopped = bp.stopped := by
  unfold onStopCommand
  cases t
  · simp only [Bool.false_eq_true, if_false, Bool.false_and]
    split <;> rfl
  · simp only [if_true, Bool.true_and]
    split
    · rfl
    · split <;> rfl

theorem step_stopped (bp bp1 : BatchProcessor α) (e : Event α) (hs : step bp e = some bp1) :
    bp1.stopped = (bp.stopped || e.isStopCall) := by
  cases e with
  | AddBatch batch =>
    simp only [step] at hs
    split at hs
    · simp at hs
    · simp only [Option.some.injEq] at hs
      subst hs
      simp [(enqueueBatch_other bp batch).2.2.2.1, Event.isStopCall]
  | Finish =>
    simp only [step, Option.some.injEq, Finish, send_stop] at hs
    subst hs
    split
    · rename_i hst; simp [hst]
    · simp [Event.isStopCall]
  | Terminate =>
    simp only [step, Option.some.injEq, Terminate, send_stop] at hs
    subst hs
    split
    · rename_i hst; simp [hst]
    · simp [Event.isStopCall]
  | wake =>
    simp only [step] at hs
    split at hs
    · simp only [Option.some.injEq] at hs
      subst hs
      simp [Event.isStopCall]
    · simp at hs
  | handlerDone =>
    simp only [step] at hs
    split at hs
    · simp only [Option.some.injEq] at hs
      subst hs
      simp [Event.isStopCall]
    · simp at hs
  | taskDone =>
    simp only [step] at hs
    split at hs
    · simp at hs
    · split at hs
      · simp at hs
      · simp only [Option.some.injEq] at hs
        subst hs
        simp [onTaskDone_stopped, Event.isStopCall]
  | stopCommand =>
    simp only [step] at hs
    split at hs
    · simp at hs
    · split at hs
      · simp at hs
      · simp only [Option.some.injEq] at hs
        subst hs
        simp [onStopCommand_stopped, Event.isStopCall]

theorem exec_stopped (evs : List (Event α)) (bp bp1 : BatchProcessor α)
    (hs : exec bp evs = some bp1) : bp1.stopped = (bp.stopped || evs.any Event.isStopCall) := by
  induction evs generalizing bp with
  | nil =>
    simp only [exec, Option.some.injEq] at hs
    subst hs
    simp
  | cons e es ih =>
    simp only [exec] at hs
    cases hstep : step bp e with
    | none => simp [hstep] at hs
    | some bp2 =>
      simp only [hstep, Option.some_bind] at hs
      rw [ih bp2 hs, step_stopped bp bp2 e hstep, List.any_cons, Bool.or_assoc]

/-- C9: in every run, the flag `stopped` is set exactly when `Finish()` or
`Terminate()` has been called before. A call made while it is unset sets it,
sends its one command and blocks on the finished signal; a call made once it is
set returns the processor unchanged, sending nothing and waiting for nothing.
Hence the commands still buffered plus the command the coordinator has taken
are one when a call was made and none otherwise. -/
theorem stop_is_sent_once (C : Int) (evs : List (Event α)) (bp0 bp : BatchProcessor α)
    (h0 : NewBatchProcessor C = some bp0) (h : exec bp0 evs = some bp) :
    bp.stopped = evs.any Event.isStopCall ∧
      bp.stopCommand.length + (if bp.loopStopped then 1 else 0) = (if bp.stopped then 1 else 0) ∧
      bp.signalsSent ≤ 1 ∧
      (bp.stopped = false → ∀ t, (send_stop bp t).stopped = true ∧
        (send_stop bp t).stopCommand = [t] ∧ (send_stop bp t).waiting = bp.waiting + 1) ∧
      (bp.stopped = true → ∀ t, send_stop bp t = bp ∧
        step bp .Finish = some bp ∧ step bp .Terminate = some bp) := by
  have hinv := inv_exec evs bp0 bp h (inv_New C bp0 h0)
  have hst0 : bp0.stopped = false := by
    unfold NewBatchProcessor at h0
    split at h0
    · simp at h0
    · simp only [Option.some.injEq] at h0
      subst h0
      rfl
  refine ⟨?_, hinv.command, ?_, ?_, ?_⟩
  · rw [exec_stopped evs bp0 bp h, hst0, Bool.false_or]
  · have := hinv.signal
    split at this <;> omega
  · intro hst t
    have hc := hinv.command
    rw [hst] at hc
    have hnil : bp.stopCommand = [] := by
      apply List.eq_nil_of_length_eq_zero
      simp only [Bool.false_eq_true, if_false] at hc
      omega
    simp [send_stop, hst, hnil]
  · intro hst t
    simp [step, Finish, Terminate, send_stop, hst]

/-- Witness for C9: the sequence of the caller in `Mastersteam.go`, a `Finish()`
that completes followed by the deferred `Terminate()`. -/
theorem stop_is_sent_once_witness :
    ∃ bp0 bp : BatchProcessor Nat, NewBatchProcessor 20 = some bp0 ∧
      exec bp0 [.AddBatch [7], .Finish, .stopCommand, .handlerDone, .taskDone, .wake] = some bp ∧
      exec bp0 [.AddBatch [7], .Finish, .stopCommand, .handlerDone, .taskDone, .wake,
        .Terminate] = some bp ∧
      (bp.stopped = true ∧
        bp.stopCommand.length + (if bp.loopStopped then 1 else 0) = (if bp.stopped then 1 else 0) ∧
        bp.signalsSent ≤ 1 ∧
        (bp.stopped = false → ∀ t, (send_stop bp t).stopped = true ∧
          (send_stop bp t).stopCommand = [t] ∧ (send_stop bp t).waiting = bp.waiting + 1) ∧
        (bp.stopped = true → ∀ t, send_stop bp t = bp ∧
          step bp .Finish = some bp ∧ step bp .Terminate = some bp)) :=
  ⟨_, _, rfl, rfl, rfl,
    stop_is_sent_once 20 [.AddBatch [7], .Finish, .stopCommand, .handlerDone, .taskDone, .wake]
      _ _ rfl rfl⟩

theorem onTaskDone_pop (bp : BatchProcessor α) (items : List α) (item : α)
    (hw : bp.worklist = items ++ [item]) :
    (onTaskDone bp).outstanding = bp.outstanding ∧ (onTaskDone bp).worklist = items ∧
      (onTaskDone bp).dispatched = bp.dispatched ++ [item] ∧
      (onTaskDone bp).running = bp.running + 1 := by
  have hl : bp.worklist.getLast? = some item := by rw [hw]; simp
  have hd : bp.worklist.dropLast = items := by rw [hw]; simp
  unfold onTaskDone
  simp only [hl, enqueueItem, hd]
  refine ⟨?_, trivial, trivial, trivial⟩
  omega

theorem onTaskDone_idle (bp : BatchProcessor α) (hw : bp.worklist = []) :
    (onTaskDone bp).outstanding = bp.outstanding - 1 ∧ (onTaskDone bp).running = bp.running := by
  have hl : bp.worklist.getLast? = none := by simp [hw]
  unfold onTaskDone
  simp only [hl]
  split
  · cases bp.terminated
    · exact ⟨rfl, rfl⟩
    · exact ⟨rfl, rfl⟩
  · exact ⟨rfl, rfl⟩

/-- C13: for every ceiling `C ≥ 0`, in every state the coordinator can reach, a
non-empty worklist implies `outstanding = maxTasks = C`, so no item waits while
a slot is free. When the coordinator takes a completion notification with a
non-empty worklist it starts exactly one item, the last of the worklist, and
`outstanding` is unchanged; with an empty worklist it starts nothing and
`outstanding` decreases by one. The state after the step again has no item
waiting beside a free slot. -/
theorem pending_only_when_full (C : Int) (_hC : 0 ≤ C) (evs : List (Event α))
    (bp0 bp : BatchProcessor α) (h0 : NewBatchProcessor C = some bp0)
    (h : exec bp0 evs = some bp) :
    bp.maxTasks = C ∧ (bp.worklist ≠ [] → bp.outstanding = bp.maxTasks) ∧
      ∀ bp1, step bp .taskDone = some bp1 →
        (bp.worklist ≠ [] → bp1.outstanding = bp.outstanding ∧
          ∃ item, bp.worklist = bp1.worklist ++ [item] ∧
            bp1.dispatched = bp.dispatched ++ [item] ∧ bp1.running = bp.running + 1) ∧
        (bp.worklist = [] → bp1.outstanding = bp.outstanding - 1 ∧ bp1.worklist = [] ∧
          bp1.dispatched = bp.dispatched ∧ bp1.running = bp.running) ∧
        (bp1.worklist ≠ [] → bp1.outstanding = bp1.maxTasks) := by
  have hinv := inv_exec evs bp0 bp h (inv_New C bp0 h0)
  have hm : bp.maxTasks = C := by rw [exec_maxTasks evs bp0 bp h, New_maxTasks C bp0 h0]
  refine ⟨hm, hinv.full, ?_⟩
  intro bp1 hs
  have hinv1 := inv_step bp bp1 .taskDone hs hinv
  simp only [step] at hs
  split at hs
  · simp at hs
  · split at hs
    · simp at hs
    · simp only [Option.some.injEq] at hs
      subst hs
      refine ⟨?_, ?_, hinv1.full⟩
      · intro hne
        have hsplit : bp.worklist = bp.worklist.dropLast ++ [bp.worklist.getLast hne] :=
          (List.dropLast_append_getLast hne).symm
        obtain ⟨g1, g2, g3, g4⟩ := onTaskDone_pop bp _ _ hsplit
        refine ⟨g1, bp.worklist.getLast hne, ?_, g3, g4⟩
        rw [g2]
        exact hsplit
      · intro hnil
        obtain ⟨g1, g2⟩ := onTaskDone_idle bp hnil
        obtain ⟨g3, g4⟩ := onTaskDone_empty bp hnil
        exact ⟨g1, g3, g4, g2⟩

/-- Witness for C13: ceiling 2 and a batch of three items. Item 9 waits with both
slots taken; the first completion starts it and leaves `outstanding` at 2. -/
theorem pending_only_when_full_witness :
    ∃ bp0 bp bp1 : BatchProcessor Nat, NewBatchProcessor 2 = some bp0 ∧
      exec bp0 [.AddBatch [7, 8, 9], .handlerDone] = some bp ∧
      bp.worklist = [9] ∧ bp.outstanding = 2 ∧
      step bp .taskDone = some bp1 ∧
      bp1.worklist = [] ∧ bp1.outstanding = 2 ∧ bp1.dispatched = [7, 8, 9] ∧
      (bp.maxTasks = 2 ∧ (bp.worklist ≠ [] → bp.outstanding = bp.maxTasks) ∧
        ∀ bp2, step bp .taskDone = some bp2 →
          (bp.worklist ≠ [] → bp2.outstanding = bp.outstanding ∧
            ∃ item, bp.worklist = bp2.worklist ++ [item] ∧
              bp2.dispatched = bp.dispatched ++ [item] ∧ bp2.running = bp.running + 1) ∧
          (bp.worklist = [] → bp2.outstanding = bp.outstanding - 1 ∧ bp2.worklist = [] ∧
            bp2.dispatched = bp.dispatched ∧ bp2.running = bp.running) ∧
          (bp2.worklist ≠ [] → bp2.outstanding = bp2.maxTasks)) :=
  ⟨_, _, _, rfl, rfl, rfl, rfl, rfl, rfl, rfl, rfl,
    pending_only_when_full 2 (by decide) [.AddBatch [7, 8, 9], .handlerDone] _ _ rfl rfl⟩

end batch

namespace valve

theorem or_shiftLeft (a b i : Nat) (h : a < 2 ^ i) : a ||| (b <<< i) = a + 2 ^ i * b := by
  rw [Nat.shiftLeft_eq, Nat.mul_comm, Nat.lor_comm, ← Nat.mul_add_lt_is_or h]
  omega

theorem drop_length_remaining (pr : PacketReader) :
    (pr.buffer.drop pr.pos).length = pr.remaining := by
  simp [PacketReader.remaining]

theorem tail_of_remaining (pr : PacketReader) (h : 0 < pr.remaining) :
    pr.tail = .ok (pr.buffer.drop pr.pos) := by
  unfold PacketReader.remaining at h
  unfold PacketReader.tail
  rw [if_pos (by omega)]

theorem decodeAt_short (pr : PacketReader) (decode : List Byte → Except Fault Nat) (width : Nat)
    (hd : ∀ l : List Byte, l.length < width → decode l = .error Fault.indexOutOfRange)
    (h : pr.remaining < width) :
    pr.decodeAt decode width = (.error Fault.indexOutOfRange, pr) := by
  unfold PacketReader.decodeAt PacketReader.tail
  split
  · rename_i f heq
    split at heq
    · simp at heq
    · simp only [Except.error.injEq] at heq
      subst heq
      rfl
  · rename_i b heq
    split at heq
    · simp only [Except.ok.injEq] at heq
      subst heq
      rw [hd _ (by rw [drop_length_remaining]; exact h)]
    · simp at heq

theorem Uint16_short (l : List Byte) (h : l.length < 2) :
    LittleEndian_Uint16 l = .error Fault.indexOutOfRange := by
  match l, h with
  | [], _ => rfl
  | [_], _ => rfl
  | _ :: _ :: _, h => (simp only [List.length_cons] at h; omega)

theorem Uint32_short (l : List Byte) (h : l.length < 4) :
    LittleEndian_Uint32 l = .error Fault.indexOutOfRange := by
  match l, h with
  | [], _ => rfl
  | [_], _ => rfl
  | [_, _], _ => rfl
  | [_, _, _], _ => rfl
  | _ :: _ :: _ :: _ :: _, h => (simp only [List.length_cons] at h; omega)

theorem Uint64_short (l : List Byte) (h : l.length < 8) :
    LittleEndian_Uint64 l = .error Fault.indexOutOfRange := by
  match l, h with
  | [], _ => rfl
  | [_], _ => rfl
  | [_, _], _ => rfl
  | [_, _, _], _ => rfl
  | [_, _, _, _], _ => rfl
  | [_, _, _, _, _], _ => rfl
  | [_, _, _, _, _, _], _ => rfl
  | [_, _, _, _, _, _, _], _ => rfl
  | _ :: _ :: _ :: _ :: _ :: _ :: _ :: _ :: _, h => (simp only [List.length_cons] at h; omega)

/-- What the reads do with fewer bytes left than the width: `ReadPort` and
`ReadIPv4`, which call `canRead`, return `ErrOutOfBounds`; `ReadUint8`,
`ReadUint16`, `ReadUint32`, `ReadInt32`, `ReadUint64` and `ReadFloat32`, which
do not, stop with the runtime's index-out-of-range fault. None of them reads
past the end and all of them leave the reader, hence `Pos()`, as it was. -/
theorem short_reads_fail (pr : PacketReader) :
    (pr.remaining < 2 → pr.ReadPort = (.error Fault.ErrOutOfBounds, pr)) ∧
    (pr.remaining < 4 → pr.ReadIPv4 = (.error Fault.ErrOutOfBounds, pr)) ∧
    (pr.remaining < 1 → pr.ReadUint8 = (.error Fault.indexOutOfRange, pr)) ∧
    (pr.remaining < 2 → pr.ReadUint16 = (.error Fault.indexOutOfRange, pr)) ∧
    (pr.remaining < 4 → pr.ReadUint32 = (.error Fault.indexOutOfRange, pr)) ∧
    (pr.remaining < 4 → pr.ReadInt32 = (.error Fault.indexOutOfRange, pr)) ∧
    (pr.remaining < 8 → pr.ReadUint64 = (.error Fault.indexOutOfRange, pr)) ∧
    (pr.remaining < 4 → pr.ReadFloat32 = (.error Fault.indexOutOfRange, pr)) := by
  have h32 : pr.remaining < 4 → pr.ReadUint32 = (.error Fault.indexOutOfRange, pr) :=
    fun h => decodeAt_short pr _ 4 Uint32_short h
  refine ⟨?_, ?_, ?_, ?_, h32, ?_, ?_, ?_⟩
  · intro h
    unfold PacketReader.remaining at h
    simp only [PacketReader.ReadPort, PacketReader.canRead]
    rw [if_pos (by omega)]
  · intro h
    unfold PacketReader.remaining at h
    simp only [PacketReader.ReadIPv4, PacketReader.canRead]
    rw [if_pos (by omega)]
  · intro h
    unfold PacketReader.remaining at h
    have hnone : pr.buffer.get? pr.pos = none := by
      rw [List.get?_eq_none]
      omega
    simp only [PacketReader.ReadUint8, hnone]
  · intro h
    exact decodeAt_short pr _ 2 Uint16_short h
  · intro h
    simp only [PacketReader.ReadInt32, h32 h]
    rfl
  · intro h
    exact decodeAt_short pr _ 8 Uint64_short h
  · intro h
    simp only [PacketReader.ReadFloat32, h32 h]
    rfl

/-- The reads of `short_reads_fail` with one byte left. -/
theorem short_reads_fail_witness :
    (NewPacketReader [7]).ReadPort = (.error Fault.ErrOutOfBounds, NewPacketReader [7]) ∧
    (NewPacketReader [7]).ReadUint16 = (.error Fault.indexOutOfRange, NewPacketReader [7]) ∧
    (NewPacketReader [7]).ReadUint64 = (.error Fault.indexOutOfRange, NewPacketReader [7]) :=
  ⟨(short_reads_fail (NewPacketReader [7])).1 (by decide),
    (short_reads_fail (NewPacketReader [7])).2.2.2.1 (by decide),
    (short_reads_fail (NewPacketReader [7])).2.2.2.2.2.2.1 (by decide)⟩

/-- It is not so that `ReadUint8` returns `ErrOutOfBounds` whenever no byte is
left: on an empty buffer it does not. -/
theorem ReadUint8_has_no_ErrOutOfBounds :
    ¬ ∀ pr : PacketReader, pr.remaining < 1 → pr.ReadUint8 = (.error Fault.ErrOutOfBounds, pr) := by
  intro hall
  have h := hall (NewPacketReader []) (by decide)
  revert h
  decide


/-- C5, the code at the failing input: on buffers shorter than the field,
`ReadUint8`, `ReadUint16`, `ReadUint32`, `ReadInt32`, `ReadUint64` and
`ReadFloat32` do not fail with `ErrOutOfBounds`: they stop with the runtime's
index-out-of-range fault (the cursor stays where it was). On the same buffers
the sibling reads `ReadPort` and `ReadIPv4`, which call `canRead` first, do
return `ErrOutOfBounds`, and `Slice` returns `nil`. -/
theorem unchecked_reads_fault_on_short_buffer :
    (NewPacketReader []).ReadUint8 = (.error Fault.indexOutOfRange, NewPacketReader []) ∧
    (NewPacketReader [7]).ReadUint16 = (.error Fault.indexOutOfRange, NewPacketReader [7]) ∧
    (NewPacketReader [7, 8, 9]).ReadUint32 =
      (.error Fault.indexOutOfRange, NewPacketReader [7, 8, 9]) ∧
    (NewPacketReader [7, 8, 9]).ReadInt32 =
      (.error Fault.indexOutOfRange, NewPacketReader [7, 8, 9]) ∧
    (NewPacketReader [1, 2, 3, 4, 5, 6, 7]).ReadUint64 =
      (.error Fault.indexOutOfRange, NewPacketReader [1, 2, 3, 4, 5, 6, 7]) ∧
    (NewPacketReader [7, 8, 9]).ReadFloat32 =
      (.error Fault.indexOutOfRange, NewPacketReader [7, 8, 9]) ∧
    (NewPacketReader [7]).ReadPort = (.error Fault.ErrOutOfBounds, NewPacketReader [7]) ∧
    (NewPacketReader [7, 8, 9]).ReadIPv4 =
      (.error Fault.ErrOutOfBounds, NewPacketReader [7, 8, 9]) ∧
    (NewPacketReader [7]).Slice 2 = (.ok none, NewPacketReader [7]) := by
  decide

theorem tryReadLoop_terminated (buffer : List Byte) (start : Nat) (str rest : List Byte)
    (pos : Nat) (h : (0 : Byte) ∉ str) :
    PacketReader.tryReadLoop buffer start (str ++ 0 :: rest) pos =
      (((buffer.drop start).take (pos + str.length - start), true),
        { buffer := buffer, pos := pos + str.length + 1 }) := by
  induction str generalizing pos with
  | nil => simp [PacketReader.tryReadLoop]
  | cons b str ih =>
    have hb : b ≠ 0 := by
      intro hb0
      exact h (by simp [hb0])
    have hstr : (0 : Byte) ∉ str := by
      intro hmem
      exact h (List.mem_cons_of_mem b hmem)
    rw [List.cons_append, PacketReader.tryReadLoop, if_neg hb, ih (pos + 1) hstr]
    simp only [List.length_cons]
    have e1 : pos + 1 + str.length = pos + (str.length + 1) := by omega
    rw [e1]

/-- C6, as the code has it: for every string without a zero byte, writing it with
`WriteCString` into an empty builder and decoding the bytes with
`TryReadString` from position 0 returns the string with `true` and leaves
`Pos()` at `len(s) + 1`. -/
theorem WriteCString_TryReadString (str : List Byte) (h : (0 : Byte) ∉ str) :
    (NewPacketReader (PacketBuilder.WriteCString { bytes := [] } str).bytes).TryReadString.1 =
        (str, true) ∧
      (NewPacketReader (PacketBuilder.WriteCString { bytes := [] } str).bytes).TryReadString.2.Pos =
        str.length + 1 := by
  simp only [PacketBuilder.WriteCString, NewPacketReader, PacketReader.TryReadString,
    List.nil_append, List.drop_zero]
  have hl := tryReadLoop_terminated (str ++ [0]) 0 str [] 0 h
  rw [hl]
  simp [PacketReader.Pos]

/-- Witness for C6: the string "ab". -/
theorem WriteCString_TryReadString_witness :
    (NewPacketReader (PacketBuilder.WriteCString { bytes := [] } [97, 98]).bytes).TryReadString.1 =
        ([97, 98], true) ∧
      (NewPacketReader (PacketBuilder.WriteCString { bytes := [] } [97, 98]).bytes).TryReadString.2.Pos =
        2 + 1 :=
  WriteCString_TryReadString [97, 98] (by decide)

/-- Counterexample for C6 as stated: the three-byte string "a\x00b" comes back as
"a", with the cursor at 2 instead of 4. -/
theorem WriteCString_TryReadString_zero_byte :
    ¬ ∀ str : List Byte,
      (NewPacketReader (PacketBuilder.WriteCString { bytes := [] } str).bytes).TryReadString.1 =
          (str, true) ∧
        (NewPacketReader (PacketBuilder.WriteCString { bytes := [] } str).bytes).TryReadString.2.Pos =
          str.length + 1 := by
  intro hall
  have h := hall [97, 0, 98]
  revert h
  decide

theorem drop_two (l : List Byte) (n : Nat) (h : n + 2 ≤ l.length) :
    ∃ b0 b1 rest, l.drop n = b0 :: b1 :: rest := by
  have h0 : n < l.length := by omega
  have h1 : n + 1 < l.length := by omega
  exact ⟨l[n], l[n + 1], l.drop (n + 1 + 1), by
    rw [List.drop_eq_getElem_cons h0, List.drop_eq_getElem_cons h1]⟩

theorem drop_four (l : List Byte) (n : Nat) (h : n + 4 ≤ l.length) :
    ∃ b0 b1 b2 b3 rest, l.drop n = b0 :: b1 :: b2 :: b3 :: rest := by
  obtain ⟨b0, b1, r1, e1⟩ := drop_two l n (by omega)
  obtain ⟨b2, b3, r2, e2⟩ := drop_two l (n + 2) (by omega)
  refine ⟨b0, b1, b2, b3, r2, ?_⟩
  have : l.drop (n + 2) = r1 := by
    rw [← List.drop_drop, e1]
    rfl
  rw [e1, ← this, e2]

theorem drop_eight (l : List Byte) (n : Nat) (h : n + 8 ≤ l.length) :
    ∃ b0 b1 b2 b3 b4 b5 b6 b7 rest,
      l.drop n = b0 :: b1 :: b2 :: b3 :: b4 :: b5 :: b6 :: b7 :: rest := by
  obtain ⟨b0, b1, b2, b3, r1, e1⟩ := drop_four l n (by omega)
  obtain ⟨b4, b5, b6, b7, r2, e2⟩ := drop_four l (n + 4) (by omega)
  refine ⟨b0, b1, b2, b3, b4, b5, b6, b7, r2, ?_⟩
  have : l.drop (n + 4) = r1 := by
    rw [← List.drop_drop, e1]
    rfl
  rw [e1, ← this, e2]

theorem ReadUint32_value (pr : PacketReader) (h : 4 ≤ pr.remaining) :
    pr.ReadUint32 = (.ok (littleEndianValue (pr.next 4)), { pr with pos := pr.pos + 4 }) := by
  have hr : 0 < pr.remaining := by omega
  have hlen : pr.pos + 4 ≤ pr.buffer.length := by
    unfold PacketReader.remaining at h
    omega
  obtain ⟨b0, b1, b2, b3, rest, e⟩ := drop_four pr.buffer pr.pos hlen
  have h0 := b0.isLt
  have h1 := b1.isLt
  have h2 := b2.isLt
  have h3 := b3.isLt
  simp only [PacketReader.ReadUint32, PacketReader.decodeAt, tail_of_remaining pr hr, e,
    LittleEndian_Uint32, PacketReader.next, List.take, littleEndianValue]
  rw [or_shiftLeft _ _ 8 (by omega), or_shiftLeft _ _ 16 (by omega),
    or_shiftLeft _ _ 24 (by omega)]
  congr 2
  omega


theorem littleEndianValue_lt (l : List Byte) : littleEndianValue l < 256 ^ l.length := by
  induction l with
  | nil => simp [littleEndianValue]
  | cons b l ih =>
    have hb := b.isLt
    simp only [littleEndianValue, List.length_cons, Nat.pow_succ]
    omega

theorem next_four_lt (pr : PacketReader) : littleEndianValue (pr.next 4) < 4294967296 := by
  have h1 := littleEndianValue_lt (pr.next 4)
  have h2 : (pr.next 4).length ≤ 4 := by
    unfold PacketReader.next
    rw [List.length_take]
    omega
  have h3 : 256 ^ (pr.next 4).length ≤ 256 ^ 4 := Nat.pow_le_pow_right (by decide) h2
  have h4 : (256 : Nat) ^ 4 = 4294967296 := by decide
  omega

/-- C7: with at least the needed bytes left at the cursor, `ReadPort` returns the
big-endian value of the next 2 bytes; `ReadUint8`, `ReadUint16`, `ReadUint32`
and `ReadUint64` return the little-endian value of the next 1, 2, 4 and 8
bytes. `ReadInt32` returns the little-endian 32-bit value `u` read as two's
complement: `u` itself below `2^31`, and `u - 2^32` from there on, so the
result lies in `[-2^31, 2^31)`. `ReadFloat32` returns the single whose IEEE 754
bit pattern is `u`: sign bit `u / 2^31`, biased exponent `u / 2^23 % 256`,
fraction `u % 2^23`. Each read moves the cursor by exactly its width. -/
theorem reads_decode_and_advance (pr : PacketReader) :
    (2 ≤ pr.remaining →
      pr.ReadPort = (.ok (bigEndianValue (pr.next 2)), { pr with pos := pr.pos + 2 })) ∧
    (1 ≤ pr.remaining →
      pr.ReadUint8 = (.ok (littleEndianValue (pr.next 1)), { pr with pos := pr.pos + 1 })) ∧
    (2 ≤ pr.remaining →
      pr.ReadUint16 = (.ok (littleEndianValue (pr.next 2)), { pr with pos := pr.pos + 2 })) ∧
    (4 ≤ pr.remaining →
      pr.ReadUint32 = (.ok (littleEndianValue (pr.next 4)), { pr with pos := pr.pos + 4 })) ∧
    (4 ≤ pr.remaining →
      pr.ReadInt32 =
          (.ok (if littleEndianValue (pr.next 4) < 2147483648
              then (littleEndianValue (pr.next 4) : Int)
              else (littleEndianValue (pr.next 4) : Int) - 4294967296),
            { pr with pos := pr.pos + 4 }) ∧
        ∃ v : Int, pr.ReadInt32.1 = .ok v ∧ -2147483648 ≤ v ∧ v < 2147483648 ∧
          (v - (littleEndianValue (pr.next 4) : Int)) % 4294967296 = 0) ∧
    (8 ≤ pr.remaining →
      pr.ReadUint64 = (.ok (littleEndianValue (pr.next 8)), { pr with pos := pr.pos + 8 })) ∧
    (4 ≤ pr.remaining →
      pr.ReadFloat32 =
          (.ok { bits := littleEndianValue (pr.next 4) }, { pr with pos := pr.pos + 4 }) ∧
        ∃ f : Float32, pr.ReadFloat32.1 = .ok f ∧
          f.sign = littleEndianValue (pr.next 4) / 2147483648 ∧
          f.exponent = littleEndianValue (pr.next 4) / 8388608 % 256 ∧
          f.fraction = littleEndianValue (pr.next 4) % 8388608) := by
  refine ⟨?_, ?_, ?_, ReadUint32_value pr, ?_, ?_, ?_⟩
  · intro h
    have hr : 0 < pr.remaining := by omega
    have hlen : pr.pos + 2 ≤ pr.buffer.length := by
      unfold PacketReader.remaining at h
      omega
    obtain ⟨b0, b1, rest, e⟩ := drop_two pr.buffer pr.pos hlen
    have h1 := b1.isLt
    simp only [PacketReader.ReadPort, PacketReader.canRead, PacketReader.decodeAt,
      tail_of_remaining pr hr, e, BigEndian_Uint16, PacketReader.next, List.take, bigEndianValue,
      List.reverse_cons, List.reverse_nil, List.nil_append, List.singleton_append,
      littleEndianValue]
    rw [if_neg (by omega), or_shiftLeft _ _ 8 (by omega)]
    congr 2
  · intro h
    have hlen : pr.pos < pr.buffer.length := by
      unfold PacketReader.remaining at h
      omega
    have e := List.drop_eq_getElem_cons hlen
    have hget : pr.buffer.get? pr.pos = some pr.buffer[pr.pos] := by
      rw [List.get?_eq_getElem?, List.getElem?_eq_getElem hlen]
    simp only [PacketReader.ReadUint8, hget, PacketReader.next, e, List.take, littleEndianValue]
    congr 2
  · intro h
    have hr : 0 < pr.remaining := by omega
    have hlen : pr.pos + 2 ≤ pr.buffer.length := by
      unfold PacketReader.remaining at h
      omega
    obtain ⟨b0, b1, rest, e⟩ := drop_two pr.buffer pr.pos hlen
    have h0 := b0.isLt
    simp only [PacketReader.ReadUint16, PacketReader.decodeAt, tail_of_remaining pr hr, e,
      LittleEndian_Uint16, PacketReader.next, List.take, littleEndianValue]
    rw [or_shiftLeft _ _ 8 (by omega)]
    congr 2
  · intro h
    have hu := next_four_lt pr
    have hmod : littleEndianValue (pr.next 4) % 2 ^ 32 = littleEndianValue (pr.next 4) :=
      Nat.mod_eq_of_lt (by
        have : (2 : Nat) ^ 32 = 4294967296 := by decide
        omega)
    have hval : toInt32 (littleEndianValue (pr.next 4)) =
        (if littleEndianValue (pr.next 4) < 2147483648
          then (littleEndianValue (pr.next 4) : Int)
          else (littleEndianValue (pr.next 4) : Int) - 4294967296) := by
      unfold toInt32
      rw [hmod]
      have h31 : (2 : Nat) ^ 31 = 2147483648 := by decide
      have h32 : (2 : Int) ^ 32 = 4294967296 := by decide
      rw [h31, h32]
    have hread : pr.ReadInt32 =
        (.ok (if littleEndianValue (pr.next 4) < 2147483648
            then (littleEndianValue (pr.next 4) : Int)
            else (littleEndianValue (pr.next 4) : Int) - 4294967296),
          { pr with pos := pr.pos + 4 }) := by
      simp only [PacketReader.ReadInt32, ReadUint32_value pr h, Except.map, hval]
    refine ⟨hread, _, by rw [hread], ?_, ?_, ?_⟩
    · split <;> omega
    · split <;> omega
    · split <;> omega
  · intro h
    have hr : 0 < pr.remaining := by omega
    have hlen : pr.pos + 8 ≤ pr.buffer.length := by
      unfold PacketReader.remaining at h
      omega
    obtain ⟨b0, b1, b2, b3, b4, b5, b6, b7, rest, e⟩ := drop_eight pr.buffer pr.pos hlen
    have h0 := b0.isLt
    have h1 := b1.isLt
    have h2 := b2.isLt
    have h3 := b3.isLt
    have h4 := b4.isLt
    have h5 := b5.isLt
    have h6 := b6.isLt
    simp only [PacketReader.ReadUint64, PacketReader.decodeAt, tail_of_remaining pr hr, e,
      LittleEndian_Uint64, PacketReader.next, List.take, littleEndianValue]
    rw [or_shiftLeft _ _ 8 (by omega), or_shiftLeft _ _ 16 (by omega),
      or_shiftLeft _ _ 24 (by omega), or_shiftLeft _ _ 32 (by omega),
      or_shiftLeft _ _ 40 (by omega), or_shiftLeft _ _ 48 (by omega),
      or_shiftLeft _ _ 56 (by omega)]
    congr 2
    omega
  · intro h
    have hu := next_four_lt pr
    have hread : pr.ReadFloat32 =
        (.ok { bits := littleEndianValue (pr.next 4) }, { pr with pos := pr.pos + 4 }) := by
      simp only [PacketReader.ReadFloat32, ReadUint32_value pr h, Except.map, Float32frombits]
    refine ⟨hread, _, by rw [hread], ?_, rfl, rfl⟩
    show littleEndianValue (pr.next 4) / 2147483648 % 2 = littleEndianValue (pr.next 4) / 2147483648
    omega

/-- Witness for C7: the bytes 1, 2, 3, 4, 5, 6, 7, 8 read from the start: the port
is 1 * 256 + 2 and the 16-bit integer is 1 + 2 * 256. The bytes ff ff ff ff
read as an `int32` are -1 and the bytes 00 00 00 80 are -2^31. The bytes
00 00 80 3f read as a `float32` are the pattern 0x3f800000 of 1.0, and the
bytes 00 00 00 c0 the pattern 0xc0000000 of -2.0. -/
theorem reads_decode_and_advance_witness :
    (NewPacketReader [1, 2, 3, 4, 5, 6, 7, 8]).ReadPort =
        (.ok 258, { buffer := [1, 2, 3, 4, 5, 6, 7, 8], pos := 2 }) ∧
      (NewPacketReader [1, 2, 3, 4, 5, 6, 7, 8]).ReadUint16 =
        (.ok 513, { buffer := [1, 2, 3, 4, 5, 6, 7, 8], pos := 2 }) ∧
      (NewPacketReader [1, 2, 3, 4, 5, 6, 7, 8]).ReadUint32 =
        (.ok 67305985, { buffer := [1, 2, 3, 4, 5, 6, 7, 8], pos := 4 }) ∧
      (NewPacketReader [1, 2, 3, 4, 5, 6, 7, 8]).ReadUint64 =
        (.ok 578437695752307201, { buffer := [1, 2, 3, 4, 5, 6, 7, 8], pos := 8 }) ∧
      (NewPacketReader [255, 255, 255, 255]).ReadInt32 =
        (.ok (-1), { buffer := [255, 255, 255, 255], pos := 4 }) ∧
      (NewPacketReader [0, 0, 0, 128]).ReadInt32 =
        (.ok (-2147483648), { buffer := [0, 0, 0, 128], pos := 4 }) ∧
      (NewPacketReader [1, 2, 3, 4]).ReadInt32 =
        (.ok 67305985, { buffer := [1, 2, 3, 4], pos := 4 }) ∧
      (NewPacketReader [0, 0, 128, 63]).ReadFloat32 =
        (.ok { bits := 1065353216 }, { buffer := [0, 0, 128, 63], pos := 4 }) ∧
      (NewPacketReader [0, 0, 0, 192]).ReadFloat32 =
        (.ok { bits := 3221225472 }, { buffer := [0, 0, 0, 192], pos := 4 }) ∧
      (Float32.sign { bits := 1065353216 } = 0 ∧ Float32.exponent { bits := 1065353216 } = 127 ∧
        Float32.fraction { bits := 1065353216 } = 0) ∧
      (Float32.sign { bits := 3221225472 } = 1 ∧ Float32.exponent { bits := 3221225472 } = 128 ∧
        Float32.fraction { bits := 3221225472 } = 0) :=
  ⟨(reads_decode_and_advance (NewPacketReader [1, 2, 3, 4, 5, 6, 7, 8])).1 (by decide),
    (reads_decode_and_advance (NewPacketReader [1, 2, 3, 4, 5, 6, 7, 8])).2.2.1 (by decide),
    (reads_decode_and_advance (NewPacketReader [1, 2, 3, 4, 5, 6, 7, 8])).2.2.2.1 (by decide),
    (reads_decode_and_advance (NewPacketReader [1, 2, 3, 4, 5, 6, 7, 8])).2.2.2.2.2.1 (by decide),
    ((reads_decode_and_advance (NewPacketReader [255, 255, 255, 255])).2.2.2.2.1 (by decide)).1,
    ((reads_decode_and_advance (NewPacketReader [0, 0, 0, 128])).2.2.2.2.1 (by decide)).1,
    ((reads_decode_and_advance (NewPacketReader [1, 2, 3, 4])).2.2.2.2.1 (by decide)).1,
    ((reads_decode_and_advance (NewPacketReader [0, 0, 128, 63])).2.2.2.2.2.2 (by decide)).1,
    ((reads_decode_and_advance (NewPacketReader [0, 0, 0, 192])).2.2.2.2.2.2 (by decide)).1,
    by decide, by decide⟩

/-- With `wait` at zero the limiter is off: `enforceRateLimit` does not sleep and
`setNextQueryTime` records nothing. -/
theorem rate_limit_off (us : UdpSocket) (now : Int) (h : us.wait = 0) :
    us.enforceRateLimit now = 0 ∧ us.setNextQueryTime now = us := by
  simp [UdpSocket.enforceRateLimit, UdpSocket.setNextQueryTime, h]

/-- For a non-zero rate `SetRateLimit` completes with `wait = Minute / r + Second`. -/
theorem SetRateLimit_nonzero (us : UdpSocket) (r : Int) (h : r ≠ 0) :
    us.SetRateLimit r = .ok { us with wait := Int.tdiv Minute r + Second } := by
  simp [UdpSocket.SetRateLimit, h]

/-- C10, the code at the failing input: `SetRateLimit(0)` does not complete. It
stops with the runtime's integer-divide-by-zero fault and sets no `wait`. -/
theorem SetRateLimit_zero_faults (us : UdpSocket) :
    us.SetRateLimit 0 = .error Fault.integerDivideByZero ∧
      ∀ us1 : UdpSocket, us.SetRateLimit 0 ≠ .ok us1 := by
  constructor
  · rfl
  · intro us1 h
    simp [UdpSocket.SetRateLimit] at h


theorem tryReadLoop_unterminated (buffer : List Byte) (start : Nat) (l : List Byte) (pos : Nat)
    (h : (0 : Byte) ∉ l) :
    PacketReader.tryReadLoop buffer start l pos =
      (([], false), { buffer := buffer, pos := pos + l.length }) := by
  induction l generalizing pos with
  | nil => simp [PacketReader.tryReadLoop]
  | cons b l ih =>
    have hb : b ≠ 0 := by
      intro hb0
      exact h (by simp [hb0])
    have hl : (0 : Byte) ∉ l := by
      intro hmem
      exact h (List.mem_cons_of_mem b hmem)
    rw [PacketReader.tryReadLoop, if_neg hb, ih (pos + 1) hl, List.length_cons]
    have e1 : pos + 1 + l.length = pos + (l.length + 1) := by omega
    rw [e1]

theorem tryReadLoop_within (buffer : List Byte) (start : Nat) (l : List Byte) (pos : Nat) :
    (PacketReader.tryReadLoop buffer start l pos).2.buffer = buffer ∧
      (PacketReader.tryReadLoop buffer start l pos).2.pos ≤ pos + l.length := by
  induction l generalizing pos with
  | nil => simp [PacketReader.tryReadLoop]
  | cons b l ih =>
    rw [PacketReader.tryReadLoop]
    split
    · simp
    · obtain ⟨g1, g2⟩ := ih (pos + 1)
      refine ⟨g1, ?_⟩
      simp only [List.length_cons]
      omega

theorem readStringLoop_within (buffer : List Byte) (start : Nat) (l : List Byte) (pos : Nat) :
    (PacketReader.readStringLoop buffer start l pos).2.buffer = buffer ∧
      (PacketReader.readStringLoop buffer start l pos).2.pos ≤ pos + l.length := by
  induction l generalizing pos with
  | nil => simp [PacketReader.readStringLoop]
  | cons b l ih =>
    rw [PacketReader.readStringLoop]
    split
    · simp
    · obtain ⟨g1, g2⟩ := ih (pos + 1)
      refine ⟨g1, ?_⟩
      simp only [List.length_cons]
      omega

theorem BigEndian_short (l : List Byte) (h : l.length < 2) :
    BigEndian_Uint16 l = .error Fault.indexOutOfRange := by
  match l, h with
  | [], _ => rfl
  | [_], _ => rfl
  | _ :: _ :: _, h => (simp only [List.length_cons] at h; omega)

theorem decodeAt_within (pr : PacketReader) (decode : List Byte → Except Fault Nat)
    (width : Nat)
    (hd : ∀ l : List Byte, l.length < width → decode l = .error Fault.indexOutOfRange)
    (h : pr.pos ≤ pr.buffer.length) :
    (pr.decodeAt decode width).2.buffer = pr.buffer ∧
      (pr.decodeAt decode width).2.pos ≤ pr.buffer.length := by
  unfold PacketReader.decodeAt PacketReader.tail
  rw [if_pos h]
  simp only
  cases hdec : decode (pr.buffer.drop pr.pos) with
  | error f => exact ⟨rfl, h⟩
  | ok v =>
    refine ⟨rfl, ?_⟩
    show pr.pos + width ≤ pr.buffer.length
    by_contra hlt
    have hshort : (pr.buffer.drop pr.pos).length < width := by
      rw [List.length_drop]
      omega
    rw [hd _ hshort] at hdec
    exact absurd hdec (by simp)

/-- Every method leaves the buffer as it is and the cursor within it. -/
theorem after_within (pr : PacketReader) (c : ReadCall) (h : pr.pos ≤ pr.buffer.length) :
    (pr.after c).buffer = pr.buffer ∧ (pr.after c).pos ≤ pr.buffer.length := by
  have h32 := decodeAt_within pr LittleEndian_Uint32 4 Uint32_short h
  cases c with
  | Slice count =>
    simp only [PacketReader.after, PacketReader.Slice]
    by_cases hc : wrapInt64 (count + (pr.pos : Int)) > (pr.buffer.length : Int)
    · rw [if_pos hc]
      exact ⟨rfl, h⟩
    · rw [if_neg hc]
      by_cases hn : wrapInt64 ((pr.pos : Int) + count) < (pr.pos : Int)
      · rw [if_pos hn]
        exact ⟨rfl, h⟩
      · rw [if_neg hn]
        refine ⟨rfl, ?_⟩
        show (wrapInt64 ((pr.pos : Int) + count)).toNat ≤ pr.buffer.length
        rw [Int.add_comm] at hc
        omega
  | ReadIPv4 =>
    simp only [PacketReader.after, PacketReader.ReadIPv4, PacketReader.canRead]
    by_cases hc : 4 + pr.pos > pr.buffer.length
    · rw [if_pos hc]
      exact ⟨rfl, h⟩
    · rw [if_neg hc]
      refine ⟨rfl, ?_⟩
      show pr.pos + 4 ≤ pr.buffer.length
      omega
  | ReadPort =>
    simp only [PacketReader.after, PacketReader.ReadPort, PacketReader.canRead]
    by_cases hc : 2 + pr.pos > pr.buffer.length
    · rw [if_pos hc]
      exact ⟨rfl, h⟩
    · rw [if_neg hc]
      exact decodeAt_within pr BigEndian_Uint16 2 BigEndian_short h
  | ReadUint8 =>
    simp only [PacketReader.after, PacketReader.ReadUint8]
    cases hget : pr.buffer.get? pr.pos with
    | none => exact ⟨rfl, h⟩
    | some b =>
      refine ⟨rfl, ?_⟩
      show pr.pos + 1 ≤ pr.buffer.length
      have hlt : pr.pos < pr.buffer.length := by
        by_contra hge
        have hnone : pr.buffer.get? pr.pos = none := by
          rw [List.get?_eq_none]
          omega
        rw [hnone] at hget
        exact absurd hget (by simp)
      omega
  | ReadUint16 => exact decodeAt_within pr LittleEndian_Uint16 2 Uint16_short h
  | ReadUint32 => exact h32
  | ReadInt32 => exact h32
  | ReadUint64 => exact decodeAt_within pr LittleEndian_Uint64 8 Uint64_short h
  | ReadFloat32 => exact h32
  | TryReadString =>
    obtain ⟨g1, g2⟩ := tryReadLoop_within pr.buffer pr.pos (pr.buffer.drop pr.pos) pr.pos
    refine ⟨g1, ?_⟩
    rw [List.length_drop] at g2
    show (PacketReader.tryReadLoop pr.buffer pr.pos (pr.buffer.drop pr.pos) pr.pos).2.pos ≤ _
    omega
  | ReadString =>
    obtain ⟨g1, g2⟩ := readStringLoop_within pr.buffer pr.pos (pr.buffer.drop pr.pos) pr.pos
    refine ⟨g1, ?_⟩
    rw [List.length_drop] at g2
    show (PacketReader.readStringLoop pr.buffer pr.pos (pr.buffer.drop pr.pos) pr.pos).2.pos ≤ _
    omega

/-- The cursor of every reader obtained from `NewPacketReader` by calls of its
methods lies within the buffer. -/
theorem cursor_within_buffer (packet : List Byte) (cs : List ReadCall) :
    ((NewPacketReader packet).afterAll cs).buffer = packet ∧
      ((NewPacketReader packet).afterAll cs).pos ≤ packet.length := by
  have key : ∀ (cs : List ReadCall) (pr : PacketReader), pr.pos ≤ pr.buffer.length →
      (pr.afterAll cs).buffer = pr.buffer ∧ (pr.afterAll cs).pos ≤ pr.buffer.length := by
    intro cs
    induction cs with
    | nil => intro pr h; exact ⟨rfl, h⟩
    | cons c cs ih =>
      intro pr h
      obtain ⟨g1, g2⟩ := after_within pr c h
      obtain ⟨k1, k2⟩ := ih (pr.after c) (by rw [g1]; exact g2)
      exact ⟨by rw [PacketReader.afterAll, k1, g1], by rw [PacketReader.afterAll]; rw [g1] at k2; exact k2⟩
  exact key cs (NewPacketReader packet) (Nat.zero_le _)

theorem wrapInt64_small (x : Int) (h0 : 0 ≤ x) (h1 : x < 9223372036854775808) :
    wrapInt64 x = x := by
  unfold wrapInt64
  omega

theorem afterAll_one (pr : PacketReader) (c : ReadCall) : pr.afterAll [c] = pr.after c :=
  rfl

theorem after_Slice (pr : PacketReader) (count : Int) :
    pr.after (.Slice count) = (pr.Slice count).2 :=
  rfl

/-- A `Slice` of `count` bytes that are there, in a buffer whose length (as for
every slice) fits a 64-bit `int`, moves the cursor by `count`. -/
theorem Slice_within (pr : PacketReader) (count : Nat)
    (h : pr.pos + count ≤ pr.buffer.length) (hlen : pr.buffer.length < 9223372036854775808) :
    (pr.Slice count).2 = { pr with pos := pr.pos + count } := by
  have hw : wrapInt64 ((count : Int) + (pr.pos : Int)) = ((pr.pos + count : Nat) : Int) := by
    rw [wrapInt64_small _ (by omega) (by omega)]
    omega
  have hw2 : wrapInt64 ((pr.pos : Int) + (count : Int)) = ((pr.pos + count : Nat) : Int) := by
    rw [wrapInt64_small _ (by omega) (by omega)]
    omega
  have hc : ¬ (((pr.pos + count : Nat) : Int) > (pr.buffer.length : Int)) := by omega
  have hn : ¬ (((pr.pos + count : Nat) : Int) < (pr.pos : Int)) := by omega
  unfold PacketReader.Slice
  rw [hw, hw2, if_neg hc, if_neg hn, Int.toNat_ofNat]

/-- Conversely, every cursor within a buffer is reached, by one `Slice`. -/
theorem within_is_reachable (pr : PacketReader) (h : pr.pos ≤ pr.buffer.length)
    (hlen : pr.buffer.length < 9223372036854775808) :
    (NewPacketReader pr.buffer).afterAll [.Slice pr.pos] = pr := by
  rw [afterAll_one, after_Slice, Slice_within (NewPacketReader pr.buffer) pr.pos
    (by show 0 + pr.pos ≤ pr.buffer.length; omega) hlen]
  show ({ buffer := pr.buffer, pos := 0 + pr.pos } : PacketReader) = pr
  rw [Nat.zero_add]

/-- C12: for every reader whose cursor lies within its buffer (the end included)
and whose buffer has no zero byte at or after the cursor, `TryReadString`
returns the empty string with `false`, without a fault, and leaves the cursor
at the end of the buffer: `Pos()` is `len(buffer)` and `More()` is false. -/
theorem TryReadString_without_terminator (pr : PacketReader)
    (hpos : pr.pos ≤ pr.buffer.length) (hz : (0 : Byte) ∉ pr.buffer.drop pr.pos) :
    pr.TryReadString = (([], false), { buffer := pr.buffer, pos := pr.buffer.length }) ∧
      pr.TryReadString.2.Pos = pr.buffer.length ∧
      pr.TryReadString.2.More = false ∧
      pr.TryReadString.2.buffer = pr.buffer := by
  have key : pr.TryReadString =
      (([], false), { buffer := pr.buffer, pos := pr.buffer.length }) := by
    unfold PacketReader.TryReadString
    rw [tryReadLoop_unterminated pr.buffer pr.pos _ pr.pos hz, List.length_drop]
    have e1 : pr.pos + (pr.buffer.length - pr.pos) = pr.buffer.length := by omega
    rw [e1]
  refine ⟨key, ?_, ?_, ?_⟩
  · rw [key]; rfl
  · rw [key]; simp [PacketReader.More]
  · rw [key]

/-- Witness for C12: the bytes "ab" without a terminator read from the start, and
the same buffer read with the cursor already at its end. -/
theorem TryReadString_without_terminator_witness :
    ((NewPacketReader [97, 98]).TryReadString =
        (([], false), { buffer := [97, 98], pos := 2 }) ∧
      (NewPacketReader [97, 98]).TryReadString.2.Pos = 2 ∧
      (NewPacketReader [97, 98]).TryReadString.2.More = false ∧
      (NewPacketReader [97, 98]).TryReadString.2.buffer = [97, 98]) ∧
    (({ buffer := [97, 98], pos := 2 } : PacketReader).TryReadString =
        (([], false), { buffer := [97, 98], pos := 2 }) ∧
      ({ buffer := [97, 98], pos := 2 } : PacketReader).TryReadString.2.Pos = 2 ∧
      ({ buffer := [97, 98], pos := 2 } : PacketReader).TryReadString.2.More = false ∧
      ({ buffer := [97, 98], pos := 2 } : PacketReader).TryReadString.2.buffer = [97, 98]) :=
  ⟨TryReadString_without_terminator (NewPacketReader [97, 98]) (by decide) (by decide),
    TryReadString_without_terminator { buffer := [97, 98], pos := 2 } (by decide) (by decide)⟩

theorem Send_next (us : UdpSocket) (now : Int) (lag writeTime : Nat) (err : Option NetError)
    (hw : us.wait ≠ 0) :
    (us.Send now lag writeTime err).socket.next =
        (us.Send now lag writeTime err).returnAt + us.wait ∧
      (us.Send now lag writeTime err).socket.wait = us.wait := by
  simp [UdpSocket.Send, UdpSocket.setNextQueryTime, hw]

theorem Send_not_before_next (us : UdpSocket) (now : Int) (lag writeTime : Nat)
    (err : Option NetError) (hw : us.wait ≠ 0) :
    us.next ≤ (us.Send now lag writeTime err).transmitAt ∧
      (us.Send now lag writeTime err).transmitAt ≤ (us.Send now lag writeTime err).returnAt := by
  simp only [UdpSocket.Send, UdpSocket.enforceRateLimit, if_neg hw]
  constructor
  · split <;> omega
  · omega

/-- C11: for every `requestsPerMinute > 0`, `SetRateLimit` completes and sets `wait`
to `60_000_000_000 / r + 1_000_000_000` nanoseconds, which is at least one
second and is exactly two seconds for `r = 60`. After that, a `Send` records
the next allowed instant as its return instant plus `wait`, and a following
`Send`, whenever it is entered, does not call `Write` before that instant. -/
theorem SetRateLimit_spaces_sends (us : UdpSocket) (r : Int) (hr : 0 < r) :
    ∃ us1, us.SetRateLimit r = .ok us1 ∧
      us1.wait = 60000000000 / r + 1000000000 ∧ Second ≤ us1.wait ∧
      (r = 60 → us1.wait = 2 * Second) ∧
      ∀ (now1 : Int) (lag1 write1 : Nat) (err1 : Option NetError)
        (now2 : Int) (lag2 write2 : Nat) (err2 : Option NetError),
        (us1.Send now1 lag1 write1 err1).socket.next =
            (us1.Send now1 lag1 write1 err1).returnAt + us1.wait ∧
          (us1.Send now1 lag1 write1 err1).socket.next ≤
            ((us1.Send now1 lag1 write1 err1).socket.Send now2 lag2 write2 err2).transmitAt ∧
          (us1.Send now1 lag1 write1 err1).returnAt + us1.wait ≤
            ((us1.Send now1 lag1 write1 err1).socket.Send now2 lag2 write2 err2).transmitAt := by
  have hne : r ≠ 0 := by omega
  have hdiv : Int.tdiv Minute r = 60000000000 / r := by
    rw [Int.tdiv_eq_ediv (by decide) (by omega)]
    rfl
  have hnn : (0 : Int) ≤ 60000000000 / r := Int.ediv_nonneg (by decide) (by omega)
  refine ⟨{ us with wait := Int.tdiv Minute r + Second }, SetRateLimit_nonzero us r hne, ?_, ?_,
    ?_, ?_⟩
  · show Int.tdiv Minute r + Second = 60000000000 / r + 1000000000
    rw [hdiv]
    rfl
  · show Second ≤ Int.tdiv Minute r + Second
    rw [hdiv]
    omega
  · intro h60
    subst h60
    show Int.tdiv Minute 60 + Second = 2 * Second
    decide
  · intro now1 lag1 write1 err1 now2 lag2 write2 err2
    have hw : ({ us with wait := Int.tdiv Minute r + Second } : UdpSocket).wait ≠ 0 := by
      show Int.tdiv Minute r + Second ≠ 0
      rw [hdiv]
      have : Second = 1000000000 := rfl
      omega
    obtain ⟨g1, g2⟩ := Send_next _ now1 lag1 write1 err1 hw
    have hw2 : (({ us with wait := Int.tdiv Minute r + Second } : UdpSocket).Send now1 lag1 write1
        err1).socket.wait ≠ 0 := by
      rw [g2]
      exact hw
    have g3 := (Send_not_before_next _ now2 lag2 write2 err2 hw2).1
    refine ⟨g1, g3, ?_⟩
    rw [← g1]
    exact g3

/-- Witness for C11: `SetRateLimit(60)` on a fresh socket, a `Send` entered at
instant 5 s whose write takes 1 ms, and a second `Send` entered as soon as
the first returns: its `Write` is called 2 s after the first one returned. -/
theorem SetRateLimit_spaces_sends_witness :
    (UdpSocket.SetRateLimit { timeout := 0, wait := 0, next := 0 } 60 =
        .ok { timeout := 0, wait := 2000000000, next := 0 }) ∧
      ((UdpSocket.Send { timeout := 0, wait := 2000000000, next := 0 } 5000000000 0 1000000
        none).returnAt = 5001000000) ∧
      (((UdpSocket.Send { timeout := 0, wait := 2000000000, next := 0 } 5000000000 0 1000000
        none).socket.Send 5001000000 0 1000000 none).transmitAt = 7001000000) ∧
      ∃ us1, UdpSocket.SetRateLimit { timeout := 0, wait := 0, next := 0 } 60 = .ok us1 ∧
        us1.wait = 60000000000 / 60 + 1000000000 ∧ Second ≤ us1.wait ∧
        ((60 : Int) = 60 → us1.wait = 2 * Second) ∧
        ∀ (now1 : Int) (lag1 write1 : Nat) (err1 : Option NetError)
          (now2 : Int) (lag2 write2 : Nat) (err2 : Option NetError),
          (us1.Send now1 lag1 write1 err1).socket.next =
              (us1.Send now1 lag1 write1 err1).returnAt + us1.wait ∧
            (us1.Send now1 lag1 write1 err1).socket.next ≤
              ((us1.Send now1 lag1 write1 err1).socket.Send now2 lag2 write2 err2).transmitAt ∧
            (us1.Send now1 lag1 write1 err1).returnAt + us1.wait ≤
              ((us1.Send now1 lag1 write1 err1).socket.Send now2 lag2 write2 err2).transmitAt :=
  ⟨by decide, by decide, by decide,
    SetRateLimit_spaces_sends { timeout := 0, wait := 0, next := 0 } 60 (by decide)⟩

end valve
